import Mathlib

/-!
Verification development for the smithy-vscode language-server core.

The definitions below are a shallow embedding of the TypeScript sources:
the Lexer (src/server/src/Lexer.ts), the Identifier and ParsedDocument
logic (src/server/src/Identifier.ts, src/server/src/ParsedDocument.ts),
the schema registry (src/server/src/schema.ts) and the recursive-descent
Parser (src/server/src/Parser.ts).  Source text is a list of characters;
the JavaScript string method charAt, which returns the empty string out
of bounds, is modelled by an Option Char that is none out of bounds.
Loops of the source become recursion; the two scanning loops of the
Lexer that the source does not obviously bound (the outer token loop and
skipUntil) take an explicit fuel argument and return none when it runs
out, so that divergence of the source is observable as: none for every
fuel.
-/

namespace Smithy

/-- TokenType enum from src/server/src/TokenType.ts. -/
inductive TokenType where
  | Error
  | Comment
  | DocumentationComment
  | Delimiter
  | String
  | Number
  | Identifier
  | End
deriving DecidableEq, Repr

/-- The enum value string of a TokenType, as used in template literals. -/
def tokenTypeName : TokenType → String
  | .Error => "Error"
  | .Comment => "Comment"
  | .DocumentationComment => "DocumentationComment"
  | .Delimiter => "Delimiter"
  | .String => "String"
  | .Number => "Number"
  | .Identifier => "Identifier"
  | .End => "End"

/-- Position from src/server/src/Position.ts: zero-based index, line, column. -/
structure Position where
  index : Nat
  line : Nat
  column : Nat
deriving DecidableEq, Repr

/-- A token range: start and stop (the source field is named end). -/
structure TRange where
  start : Position
  stop : Position
deriving DecidableEq, Repr

/-- Token from src/server/src/Token.ts.  The value field is undefined on
the initial parser sentinel, hence Option. -/
structure Token where
  type : TokenType
  text : String
  range : TRange
  value : Option String
deriving DecidableEq, Repr

/-- JavaScript charAt at an index: none models the empty string result. -/
def charAt (src : List Char) (i : Nat) : Option Char :=
  src[i]?

/-- The slice source.substring(a, b) as a character list. -/
def sliceL (src : List Char) (a b : Nat) : List Char :=
  (src.drop a).take (b - a)

/-- Lexer.advance: pre-increment the index, read the character at the new
index, bump the column, and on a line feed at the new index reset the
column and bump the line.  Returns the new position and the character
read (the return value of advance in the source). -/
def lexAdvance (src : List Char) (p : Position) : Position × Option Char :=
  let i := p.index + 1
  let r := charAt src i
  (⟨i, if r = some '\n' then p.line + 1 else p.line,
      if r = some '\n' then 0 else p.column + 1⟩, r)

/-- Position after Lexer.advance. -/
def lexAdv (src : List Char) (p : Position) : Position :=
  (lexAdvance src p).1

/-- Lexer.ended. -/
def lexEnded (src : List Char) (p : Position) : Bool :=
  decide (src.length ≤ p.index)

/-- Whitespace characters of the lexer: space and tab. -/
def isWsChar (c : Char) : Bool :=
  c = ' ' || c = '\t'

/-- The delimiter character class of the lexer. -/
def isDelimChar (c : Char) : Bool :=
  c = '(' || c = ')' || c = '\x7b' || c = '\x7d' || c = '[' || c = ']' ||
  c = ',' || c = ':' || c = '='

/-- Decimal digits. -/
def isDigitChar (c : Char) : Bool :=
  '0' ≤ c && c ≤ '9'

/-- ASCII letters (the regular expressions carry the i flag). -/
def isAsciiLetter (c : Char) : Bool :=
  ('a' ≤ c && c ≤ 'z') || ('A' ≤ c && c ≤ 'Z')

/-- First character class of an identifier token. -/
def isIdentStart (c : Char) : Bool :=
  isAsciiLetter c || c = '_' || c = '.' || c = '$' || c = '#' || c = '@'

/-- Continuation character class of an identifier token. -/
def isIdentChar (c : Char) : Bool :=
  isAsciiLetter c || isDigitChar c || c = '_' || c = '.' || c = '$' ||
  c = '#' || c = '@'

/-- Test an optional character: the empty string matches no character
class in the source regular expressions. -/
def charTest (p : Char → Bool) (c : Option Char) : Bool :=
  match c with
  | some x => p x
  | none => false

/-- The string rendering of an optional character, as template literals
render it (empty string when out of bounds). -/
def optStr (c : Option Char) : String :=
  match c with
  | some x => String.mk [x]
  | none => ""

/-- Lexer.valueFromHexChar. -/
def valueFromHexChar (c : Char) : Option Nat :=
  let n := c.toNat
  if '0'.toNat ≤ n ∧ n ≤ '9'.toNat then some (n - '0'.toNat)
  else if 'a'.toNat ≤ n ∧ n ≤ 'f'.toNat then some (n - 'a'.toNat + 10)
  else if 'A'.toNat ≤ n ∧ n ≤ 'F'.toNat then some (n - 'A'.toNat + 10)
  else none

/-- The static escapedCharacters table of the Lexer, together with the
fallthrough that pushes an unrecognized escaped character literally (and
nothing when the escape hits end of input). -/
def escPush (c : Option Char) : List Char :=
  match c with
  | some '\\' => ['\\']
  | some '"' => ['"']
  | some 'b' => ['\x08']
  | some 'f' => ['\x0C']
  | some 'n' => ['\n']
  | some 'r' => ['\r']
  | some 't' => ['\t']
  | some x => [x]
  | none => []

/-- Whether an optional character is one of the seven table escapes. -/
def isTableEscape (c : Char) : Bool :=
  c = '\\' || c = '"' || c = 'b' || c = 'f' || c = 'n' || c = 'r' || c = 't'

/-- The for loop of the unicode escape: up to four advances, stopping
early (after the advance) at a non-hex character, accumulating the value
in base 16. -/
def hexLoop (src : List Char) : Nat → Position → Nat → Position × Nat
  | 0, p, v => (p, v)
  | k + 1, p, v =>
    let a := lexAdvance src p
    match a.2 with
    | none => (a.1, v)
    | some c =>
      match valueFromHexChar c with
      | none => (a.1, v)
      | some d => hexLoop src k a.1 (v * 16 + d)

/-- The initial whitespace loop of getTokens: while the current character
is a space or tab, advance; when the advance runs off the end the whole
generator returns (modelled by some none).  The outer none is fuel
exhaustion. -/
def wsSkipF : Nat → List Char → Position → Option (Option Position)
  | 0, _, _ => none
  | n + 1, src, p =>
    match charAt src p.index with
    | some c =>
      if isWsChar c then
        let a := lexAdvance src p
        match a.2 with
        | none => some none
        | some _ => wsSkipF n src a.1
      else some (some p)
    | none => some (some p)

/-- Lexer.skipWhile with fuel: advance while the current character
matches. -/
def skipWhileF : Nat → (Char → Bool) → List Char → Position → Option Position
  | 0, _, _, _ => none
  | n + 1, pr, src, p =>
    match charAt src p.index with
    | some c => if pr c then skipWhileF n pr src (lexAdv src p) else some p
    | none => some p

/-- Lexer.skipUntil with fuel: the source advances while the current
character does not match, with no end-of-input check, so past the end it
keeps advancing forever; exhausting every fuel models that divergence. -/
def skipUntilF (fuel : Nat) (pr : Char → Bool) (src : List Char)
    (p : Position) : Option Position :=
  match fuel with
  | 0 => none
  | n + 1 =>
    match charAt src p.index with
    | some c => if pr c then some p else skipUntilF n pr src (lexAdv src p)
    | none => skipUntilF n pr src (lexAdv src p)

/-- The string-literal loop of getTokens.  Entered at the opening quote;
every iteration first advances, then dispatches on the character at the
new index.  Returns the final position and some decoded value when a
closing quote was found (the source yields a String token there), or
none when the loop fell off the end of the input with the string
unterminated (the source yields nothing there). -/
def strLoopF : Nat → List Char → Position → List Char →
    Option (Position × Option (List Char))
  | 0, _, _, _ => none
  | n + 1, src, p, acc =>
    if lexEnded src p then some (p, none)
    else
      let a := lexAdvance src p
      match a.2 with
      | none => strLoopF n src a.1 acc
      | some c =>
        if c = '"' then some (lexAdv src a.1, some acc)
        else if c = '\\' then
          let b := lexAdvance src a.1
          if b.2 = some 'u' then
            let h := hexLoop src 4 b.1 0
            strLoopF n src h.1 (acc ++ [Char.ofNat h.2])
          else strLoopF n src b.1 (acc ++ escPush b.2)
        else strLoopF n src a.1 (acc ++ [c])

/-- One yielded token: the text is the verbatim slice between the start
and stop indices (Lexer.createToken with textSince). -/
def mkToken (src : List Char) (ty : TokenType) (start stop : Position)
    (value : Option String) : Token :=
  { type := ty
    text := String.mk (sliceL src start.index stop.index)
    range := ⟨start, stop⟩
    value := value }

/-- The optional fraction part of the number scan: when a dot followed
by a digit is next, consume the dot and the digits; returns the start
and end positions of the fraction digits (equal when absent). -/
def fracStage (fuel : Nat) (src : List Char) (p2 : Position) :
    Option (Position × Position) :=
  if charAt src p2.index = some '.' &&
      charTest isDigitChar (charAt src (p2.index + 1)) then
    match skipWhileF fuel isDigitChar src (lexAdv src p2) with
    | none => none
    | some p4 => some (lexAdv src p2, p4)
  else some (p2, p2)

/-- The optional exponent part of the number scan: when the letter e
followed by a sign or digit is next, consume the e, the optional sign
and the digits; returns the sign text and the start and end positions
of the exponent digits (equal when absent). -/
def expStage (fuel : Nat) (src : List Char) (p4 : Position) :
    Option (String × Position × Position) :=
  if charAt src p4.index = some 'e' &&
      (charTest (fun c => c = '+' || c = '-') (charAt src (p4.index + 1)) ||
       charTest isDigitChar (charAt src (p4.index + 1))) then
    let p5 := lexAdv src p4
    let haveSign := charTest (fun c => c = '+' || c = '-') (charAt src p5.index)
    let sgn := if haveSign then optStr (charAt src p5.index) else ""
    let p6 := if haveSign then lexAdv src p5 else p5
    match skipWhileF fuel isDigitChar src p6 with
    | none => none
    | some p7 => some (sgn, p6, p7)
  else some ("", p4, p4)

/-- The number-token scan of getTokens, entered when the guard (optional
minus followed by a digit, or a digit) holds.  Returns the final position
and the reconstructed numeral value (which omits the minus sign, since
the source builds it from the post-minus parts only); the fraction and
exponent parts join only when their digit spans are non-empty, exactly
as the source tests the collected strings for truthiness. -/
def numScanF (fuel : Nat) (src : List Char) (p0 : Position) :
    Option (Position × String) :=
  let negated := charAt src p0.index = some '-'
  let p1 := if negated then lexAdv src p0 else p0
  match skipWhileF fuel isDigitChar src p1 with
  | none => none
  | some p2 =>
    match fracStage fuel src p2 with
    | none => none
    | some fr =>
      match expStage fuel src fr.2 with
      | none => none
      | some ex =>
        let valueStr := String.mk (sliceL src p1.index p2.index)
        let frac := String.mk (sliceL src fr.1.index fr.2.index)
        let expo := String.mk (sliceL src ex.2.1.index ex.2.2.index)
        let numeral := valueStr ++ (if frac ≠ "" then "." ++ frac else "") ++
          (if expo ≠ "" then "e" ++ ex.1 ++ expo else "")
        some (ex.2.2, numeral)

/-- The body of Lexer.getTokens as a fueled loop producing the list of
yielded tokens; none when fuel runs out or skipUntil diverges. -/
def lexLoop (fuel : Nat) (src : List Char) (p : Position) :
    Option (List Token) :=
  match fuel with
  | 0 => none
  | n + 1 =>
    if lexEnded src p then some []
    else
      match wsSkipF (n + 1) src p with
      | none => none
      | some none => some []
      | some (some p0) =>
        let start := p0
        let c := charAt src p0.index
        let pk := charAt src (p0.index + 1)
        if c = some '/' && pk = some '/' then
          let p1 := lexAdv src p0
          let p2 := lexAdv src p1
          let p3 := if charAt src p2.index = some '/' then lexAdv src p2 else p2
          match skipUntilF (n + 1) (fun ch => ch = '\n') src p3 with
          | none => none
          | some p4 => lexLoop n src (lexAdv src p4)
        else if c = some '\n' || (c = some '\r' && pk = some '\n') then
          let p1 := if c = some '\r' then lexAdv src p0 else p0
          lexLoop n src (lexAdv src p1)
        else if charTest isDelimChar c then
          let p1 := lexAdv src p0
          (lexLoop n src p1).map
            (fun ts => mkToken src .Delimiter start p1 (some (optStr c)) :: ts)
        else if c = some '"' then
          match strLoopF (n + 1) src p0 [] with
          | none => none
          | some (p1, some v) =>
            (lexLoop n src p1).map
              (fun ts => mkToken src .String start p1 (some (String.mk v)) :: ts)
          | some (p1, none) => lexLoop n src p1
        else if (c = some '-' && charTest isDigitChar pk) ||
            charTest isDigitChar c then
          match numScanF (n + 1) src p0 with
          | none => none
          | some r =>
            (lexLoop n src r.1).map
              (fun ts => mkToken src .Number start r.1 (some r.2) :: ts)
        else if charTest isIdentStart c then
          match skipWhileF (n + 1) isIdentChar src p0 with
          | none => none
          | some p1 =>
            (lexLoop n src p1).map
              (fun ts =>
                mkToken src .Identifier start p1
                  (some (String.mk (sliceL src p0.index p1.index))) :: ts)
        else
          let p1 := lexAdv src p0
          (lexLoop n src p1).map
            (fun ts =>
              mkToken src .Error start p1
                (some ("Unknown token: " ++ optStr c ++ ", " ++
                  optStr (charAt src p1.index))) :: ts)

/-- The initial lexer position. -/
def pos0 : Position := ⟨0, 0, 0⟩

/-- Run the lexer on a source string with the given fuel. -/
def lexRun (fuel : Nat) (s : String) : Option (List Token) :=
  lexLoop fuel s.toList pos0

/-- Modelled from the claim wording of C4: the position whose line counts
the line breaks before the index and whose column counts the characters
since the last line break before the index. -/
def claimPositionAt (src : List Char) (i : Nat) : Position :=
  ⟨i, (src.take i).count '\n',
    ((src.take i).reverse.takeWhile (fun c => c ≠ '\n')).length⟩

/-- Concatenation of the token texts interleaved with the discarded
spans between them (and before the first and after the last token). -/
def recon (src : List Char) : Nat → List Token → String
  | i, [] => String.mk (sliceL src i src.length)
  | i, t :: ts =>
    String.mk (sliceL src i t.range.start.index) ++ t.text ++
      recon src t.range.stop.index ts

/-- Invariant of the token stream: from position i on, the tokens appear
in order, with exact slice texts. -/
def chainFrom (src : List Char) : Nat → List Token → Prop
  | _, [] => True
  | i, t :: ts =>
    i ≤ t.range.start.index ∧ t.range.start.index ≤ t.range.stop.index ∧
    t.text = String.mk (sliceL src t.range.start.index t.range.stop.index) ∧
    chainFrom src t.range.stop.index ts

/-- MessageType enum. -/
inductive MessageType where
  | Error
  | Warning
  | Information
  | Hint
deriving DecidableEq, Repr

/-- Message from src/server/src/Message.ts.  The indices are integers
because the collapsed range of addMessage subtracts one from the end
index, which in JavaScript can produce -1. -/
structure Message where
  type : MessageType
  startIndex : Int
  endIndex : Int
  text : String
deriving DecidableEq, Repr

/-- Section enum. -/
inductive Section where
  | Control
  | Metadata
  | Shape
deriving DecidableEq, Repr

/-- ReferenceType enum. -/
inductive ReferenceType where
  | Shape
  | Use
  | Apply
  | Trait
  | Member
deriving DecidableEq, Repr

/-- Identifier from src/server/src/Identifier.ts.  The namespace and
member fields are undefined when the respective separator is absent;
note that an empty string is a possible (distinct) value for both. -/
structure Identifier where
  ns : Option String
  name : String
  member : Option String
deriving DecidableEq, Repr

/-- Reference from src/server/src/Reference.ts. -/
structure Reference where
  token : Token
  identifier : Identifier
  type : ReferenceType
deriving DecidableEq, Repr

/-- JavaScript truthiness of a string-or-undefined value. -/
def jsTruthyStrOpt (o : Option String) : Bool :=
  match o with
  | some s => decide (s ≠ "")
  | none => false

/-- Template-literal rendering of a string-or-undefined value. -/
def showOpt (o : Option String) : String :=
  o.getD "undefined"

/-- String.indexOf(c, start): the first occurrence of c at or after
start, as in JavaScript (none for -1). -/
def idxOfFrom (l : List Char) (c : Char) (start : Nat) : Option Nat :=
  match (l.drop start).findIdx? (fun x => x = c) with
  | some k => some (start + k)
  | none => none

/-- The Identifier constructor: locate the first '#', then the first '$'
after it, and split. -/
def mkIdentifier (value : String) : Identifier :=
  let l := value.toList
  let nsIdx := idxOfFrom l '#' 0
  let fromPos := match nsIdx with | some i => i + 1 | none => 0
  let memIdx := idxOfFrom l '$' fromPos
  { ns := nsIdx.map (fun i => String.mk (l.take i))
    name := String.mk (sliceL l fromPos
      (match memIdx with | some j => j | none => l.length))
    member := memIdx.map (fun j => String.mk (l.drop (j + 1))) }

/-- Identifier.toRelative: the member joins only when truthy (a present
but empty member is dropped, as in the source). -/
def toRelative (id : Identifier) : String :=
  match id.member with
  | some m => if m ≠ "" then id.name ++ "$" ++ m else id.name
  | none => id.name

/-- Identifier.forMember. -/
def forMember (id : Identifier) (memberName : String) : Identifier :=
  mkIdentifier ((if jsTruthyStrOpt id.ns then id.ns.getD "" ++ "#" else "") ++
    id.name ++ "$" ++ memberName)

/-- Object.values(SimpleShapes) from src/server/src/schema.ts, in
declaration order. -/
def simpleShapeNames : List String :=
  ["blob", "boolean", "string", "byte", "short", "integer", "long",
   "float", "double", "bigInteger", "bigDecimal", "timestamp", "document"]

/-- Object.keys(Prelude.shapes) from src/server/src/schema.ts. -/
def preludeShapeKeys : List String :=
  ["String", "Blob", "BigInteger", "BigDecimal", "Timestamp", "Document",
   "Boolean", "PrimitiveBoolean", "Byte", "PrimitiveByte", "Short",
   "PrimitiveShort", "Integer", "PrimitiveInteger", "Long",
   "PrimitiveLong", "Float", "PrimitiveFloat", "Double",
   "PrimitiveDouble"]

/-- Object.keys(Traits) from src/server/src/schema.ts, in declaration
order. -/
def traitKeys : List String :=
  ["enum", "idRef", "length", "pattern", "private", "range", "required",
   "uniqueItems", "deprecated", "documentation", "examples",
   "externalDocumentation", "internal", "recommended", "sensitive",
   "since", "tags", "title", "unstable", "box", "error", "sparse",
   "protocolDefinition", "jsonName", "mediaType", "timestampFormat",
   "authDefinition", "httpBasicAuth", "httpDigestAuth", "httpBearerAuth",
   "httpApiKeyAuth", "optionalAuth", "auth", "idempotencyToken",
   "idempotent", "readonly", "retryable", "paginated",
   "httpChecksumRequired", "noReplace", "references",
   "resourceIdentifier", "streaming", "requiresLength", "eventHeader",
   "eventPayload", "http", "httpError", "httpHeader", "httpLabel",
   "httpPayload", "httpPrefixHeaders", "httpQuery", "httpQueryParams",
   "httpResponseCode", "cors", "xmlAttribute", "xmlFlattened", "xmlName",
   "xmlNamespace", "endpoint", "hostLabel", "suppress"]

/-- The preludeShapeNames constant of ParsedDocument.ts. -/
def preludeShapeNames : List String :=
  preludeShapeKeys ++ traitKeys

/-- KeyNode: the key part of a parsed key-value pair. -/
structure KeyNode where
  value : Option String
  token : Token
deriving DecidableEq, Repr

mutual
/-- The value stored in a Node: a string or numeral literal, undefined,
an object (a JavaScript object modelled as an insertion-ordered
association list), or an array (whose items can be undefined, as
expectValue can return undefined). -/
inductive PVal where
  | str (s : String)
  | num (s : String)
  | undef
  | obj (entries : List (String × PNode))
  | arr (items : List (Option PNode))

/-- Node from src/server/src/Node.ts: a loose record with an optional
key, a value and an optional token. -/
inductive PNode where
  | mk (key : Option KeyNode) (value : PVal) (token : Option Token)
end

/-- Key projection of a node. -/
def PNode.key : PNode → Option KeyNode
  | .mk k _ _ => k

/-- Value projection of a node. -/
def PNode.value : PNode → PVal
  | .mk _ v _ => v

/-- Token projection of a node. -/
def PNode.token : PNode → Option Token
  | .mk _ _ t => t

/-- ParsedDocument state.  The JavaScript objects used as maps are
modelled as insertion-ordered association lists; relativeShapes and
shapes store a head element beside the tail because putItem only ever
creates non-empty arrays, which resolveId indexes at 0. -/
structure PDoc where
  uri : String := ""
  sections : List (Section × Token) := []
  metadata : List (String × PVal) := []
  ns : Option String := none
  controls : List (String × PVal) := []
  relativeShapes : List (String × (String × List String)) := []
  shapes : List (String × (Token × List Token)) := []
  references : List Reference := []
  messages : List Message := []
  parsedMessageCount : Nat := 0

/-- First-match association lookup (JavaScript property read). -/
def lookupBy {κ α : Type} [DecidableEq κ] :
    List (κ × α) → κ → Option α
  | [], _ => none
  | (k2, v) :: rest, k => if k2 = k then some v else lookupBy rest k

/-- putItem from ParsedDocument.ts: create a one-element array under a
new key, or push onto the existing array. -/
def putItem {α : Type} :
    List (String × (α × List α)) → String → α → List (String × (α × List α))
  | [], k, item => [(k, (item, []))]
  | (k2, v) :: rest, k, item =>
    if k2 = k then (k2, (v.1, v.2 ++ [item])) :: rest
    else (k2, v) :: putItem rest k item

/-- The message record produced by ParsedDocument.addMessage: the token
range in absolute indices, collapsed to the unit range ending at the
token end when after is set or the token is the End sentinel. -/
def msgOf (text : String) (tok : Token) (ty : MessageType) (after : Bool) :
    Message :=
  if !after && tok.type ≠ TokenType.End then
    ⟨ty, (tok.range.start.index : Int), (tok.range.stop.index : Int), text⟩
  else
    ⟨ty, (tok.range.stop.index : Int) - 1, (tok.range.stop.index : Int), text⟩

/-- ParsedDocument.addMessage. -/
def addMessage (d : PDoc) (text : String) (tok : Token) (ty : MessageType)
    (after : Bool) : PDoc :=
  { d with messages := d.messages ++ [msgOf text tok ty after] }

/-- ParsedDocument.enterSection: first entry wins, then the ordering
diagnostics. -/
def enterSection (d : PDoc) (sec : Section) (tok : Token) : PDoc :=
  let d1 :=
    match lookupBy d.sections sec with
    | some _ => d
    | none => { d with sections := d.sections ++ [(sec, tok)] }
  match sec with
  | .Control =>
    if (lookupBy d1.sections Section.Metadata).isSome ||
        (lookupBy d1.sections Section.Shape).isSome then
      addMessage d1 "Control section has to be defined first." tok .Error false
    else d1
  | .Metadata =>
    if (lookupBy d1.sections Section.Shape).isSome then
      addMessage d1 "Metadata must be defined before shapes." tok .Error false
    else d1
  | .Shape => d1

/-- ParsedDocument.resolveId. -/
def resolveId (d : PDoc) (id : Identifier) : String :=
  let fallback :=
    (match id.ns with
     | some nsv => nsv
     | none =>
       match d.ns with
       | some dn => if dn = "" then "smithy.api" else dn
       | none => "smithy.api") ++ "#" ++ id.name ++
    (match id.member with | some m => "$" ++ m | none => "")
  match id.ns with
  | none =>
    match lookupBy d.relativeShapes (toRelative id) with
    | some pair => pair.1
    | none => fallback
  | some _ => fallback

/-- ParsedDocument.addShape. -/
def addShape (d : PDoc) (id : Identifier) (tok : Token) : PDoc :=
  let rid := resolveId d id
  let rel := toRelative id
  let d1 :=
    if (lookupBy d.relativeShapes rel).isSome then
      addMessage d "Shape is already defined." tok .Error false
    else d
  { d1 with
    shapes := putItem d1.shapes rid tok
    relativeShapes := putItem d1.relativeShapes rel rid }

/-- ParsedDocument.addReference. -/
def addReference (d : PDoc) (id : Identifier) (tok : Token)
    (ty : ReferenceType) : PDoc :=
  { d with references := d.references ++ [⟨tok, id, ty⟩] }

/-- ParsedDocument.isKnownReference: a truthiness test on namespace and
member, then membership of the name in the simple-shape or prelude
lists. -/
def isKnownReference (id : Identifier) : Bool :=
  !jsTruthyStrOpt id.ns && !jsTruthyStrOpt id.member &&
    (simpleShapeNames.contains id.name || preludeShapeNames.contains id.name)

/-- ParsedDocument.isExternalShape. -/
def isExternalShape (d : PDoc) (id : Identifier) (files : List PDoc) : Bool :=
  files.any (fun pd =>
    ((jsTruthyStrOpt id.ns && pd.ns == id.ns) ||
     (!jsTruthyStrOpt id.ns && pd.ns == d.ns)) &&
    (lookupBy pd.relativeShapes (toRelative id)).isSome)

/-- ParsedDocument.validateNamespace. -/
def validateNamespace (d : PDoc) : PDoc :=
  match lookupBy d.sections Section.Shape with
  | some tok =>
    if !jsTruthyStrOpt d.ns then
      addMessage d
        "Missing namespace declaration. Namespace \x27smithy.api\x27 from Smithy prelude will be used."
        tok .Warning false
    else d
  | none => d

/-- The comparator compareReferences as a total preorder test: a is
less-or-equal b by (start line, start column). -/
def compareRefsLe (a b : Reference) : Bool :=
  let p := a.token.range.start
  let q := b.token.range.start
  p.line < q.line || (p.line == q.line && p.column ≤ q.column)

/-- Stable insertion keeping equal keys in their original order. -/
def insertRef (x : Reference) : List Reference → List Reference
  | [] => [x]
  | y :: l => if compareRefsLe y x then y :: insertRef x l else x :: y :: l

/-- The stable sort by compareReferences (Array.prototype.sort is
stable). -/
def sortRefs (l : List Reference) : List Reference :=
  l.foldl (fun acc x => insertRef x acc) []

/-- The per-reference condition of validateReferences for emitting the
Unknown shape error. -/
def unknownCond (d : PDoc) (files : List PDoc) (r : Reference) : Bool :=
  (lookupBy d.shapes (resolveId d r.identifier)).isNone &&
  !isKnownReference r.identifier && !isExternalShape d r.identifier files

/-- The Unknown shape message for a reference. -/
def unknownMsg (r : Reference) : Message :=
  msgOf "Unknown shape." r.token MessageType.Error false

/-- One iteration of the validateReferences walk. -/
def vrefsStep (files : List PDoc) (acc : PDoc) (r : Reference) : PDoc :=
  if unknownCond acc files r then
    addMessage acc "Unknown shape." r.token .Error false
  else acc

/-- ParsedDocument.validateReferences: sort the references, then walk
them, appending one Unknown shape error per failing reference. -/
def validateReferences (d : PDoc) (files : List PDoc) : PDoc :=
  let refs := sortRefs d.references
  let d1 := { d with references := refs }
  refs.foldl (vrefsStep files) d1

/-- ParsedDocument.validate: truncate the messages to the structural
prefix, then revalidate the namespace and the references. -/
def validate (d : PDoc) (files : List PDoc) : PDoc :=
  validateReferences
    (validateNamespace { d with messages := d.messages.take d.parsedMessageCount })
    files

/-- ParsedDocument.finishParsing. -/
def finishParsing (d : PDoc) : PDoc :=
  { d with
    parsedMessageCount := d.messages.length
    references := sortRefs d.references }

/-- The three-way comparator used by findSymbol. -/
def cmpPos (line column : Nat) (r : Reference) : Int :=
  let s := r.token.range.start
  let e := r.token.range.stop
  if e.line < line then 1
  else if s.line > line then -1
  else if e.line = line && e.column < column then 1
  else if s.line = line && s.column > column then -1
  else 0

/-- The binarySearch helper of ParsedDocument.ts, on integer indices
with the negative-insertion-point convention.  The out-of-bounds read is
modelled by returning the not-found code; it is unreachable while
0 ≤ left and right < length. -/
def bsLoop (arr : List Reference) (line column : Nat)
    (left right : Int) : Int :=
  if left ≤ right then
    let mid : Int := left + ((right - left).toNat / 2 : Nat)
    match arr[mid.toNat]? with
    | none => -left - 1
    | some item =>
      let c := cmpPos line column item
      if c > 0 then bsLoop arr line column (mid + 1) right
      else if c < 0 then bsLoop arr line column left (mid - 1)
      else mid
  else -left - 1
termination_by (right + 1 - left).toNat
decreasing_by
  · omega
  · omega

/-- ParsedDocument.findSymbol. -/
def findSymbol (d : PDoc) (line column : Nat) : Option Reference :=
  let idx := bsLoop d.references line column 0 ((d.references.length : Int) - 1)
  if idx ≥ 0 then d.references[idx.toNat]? else none

/-- Fuel-indexed restatement of the binary-search loop, used to compute
concrete runs; it agrees with bsLoop whenever the fuel covers the
interval width. -/
def bsLoopF (arr : List Reference) (line column : Nat) :
    Nat → Int → Int → Int
  | 0, left, _ => -left - 1
  | fuel + 1, left, right =>
    if left ≤ right then
      let mid : Int := left + ((right - left).toNat / 2 : Nat)
      match arr[mid.toNat]? with
      | none => -left - 1
      | some item =>
        let c := cmpPos line column item
        if c > 0 then bsLoopF arr line column fuel (mid + 1) right
        else if c < 0 then bsLoopF arr line column fuel left (mid - 1)
        else mid
    else -left - 1

/-- Lexicographic strict order on (line, column). -/
def lexLtB (l1 c1 l2 c2 : Nat) : Bool :=
  l1 < l2 || (l1 == l2 && c1 < c2)

/-- Position order by (line, column), non-strict. -/
def posLeB (p q : Position) : Bool :=
  p.line < q.line || (p.line == q.line && p.column ≤ q.column)

/-- A single reference range is well formed: start not after stop. -/
def refWfB (r : Reference) : Bool :=
  posLeB r.token.range.start r.token.range.stop

/-- The references are well formed and pairwise non-overlapping in
order: each ends before (or exactly where) the next starts. -/
def chainDisjointB : List Reference → Bool
  | [] => true
  | [r] => refWfB r
  | r :: s :: t =>
    refWfB r && posLeB r.token.range.stop s.token.range.start &&
      chainDisjointB (s :: t)

/-- Sortedness of the reference list by (start line, start column). -/
def sortedByStartB : List Reference → Bool
  | [] => true
  | [_] => true
  | a :: b :: t => compareRefsLe a b && sortedByStartB (b :: t)

/-- The recursive Schema type of src/server/src/schema.ts: a tag plus
child schemas, and the optional required flag.  otherS models schema
type tags that the validator switch does not cover (none occur in the
registry). -/
inductive Schema where
  | identS (req : Bool)
  | memberS (req : Bool)
  | structS (req : Bool) (fields : Option (List (String × Schema)))
      (anyMember : Option Schema)
  | listS (req : Bool) (memberSch : Schema)
  | mapS (req : Bool) (keySch : Schema) (valSch : Schema)
  | stringS (req : Bool)
  | otherS (req : Bool) (tag : String)

/-- The required flag of a schema node. -/
def Schema.req : Schema → Bool
  | .identS r => r
  | .memberS r => r
  | .structS r _ _ => r
  | .listS r _ => r
  | .mapS r _ _ => r
  | .stringS r => r
  | .otherS r _ => r

mutual
/-- Structural weight of a schema, used as a recursion measure. -/
def schemaW : Schema → Nat
  | .identS _ => 1
  | .memberS _ => 1
  | .stringS _ => 1
  | .otherS _ _ => 1
  | .structS _ f a => 1 + fieldsOptW f + optW a
  | .listS _ m => 2 + schemaW m
  | .mapS _ k v => 2 + schemaW k + schemaW v

/-- Weight of a field list. -/
def fieldsW : List (String × Schema) → Nat
  | [] => 1
  | (_, sc) :: rest => 1 + schemaW sc + fieldsW rest

/-- Weight of an optional schema. -/
def optW : Option Schema → Nat
  | none => 1
  | some sc => 1 + schemaW sc

/-- Weight of an optional field list. -/
def fieldsOptW : Option (List (String × Schema)) → Nat
  | none => 1
  | some f => 1 + fieldsW f
end

/-- The Schema registry constant of schema.ts, keyed by the shape
keyword. -/
def schemaRegistry : List (String × Schema) :=
  [("member", .memberS false),
   ("list", .structS false (some [("member", .memberS false)]) none),
   ("set", .structS false (some [("member", .memberS false)]) none),
   ("map", .structS false
     (some [("key", .memberS false), ("value", .memberS false)]) none),
   ("structure", .structS false none (some (.memberS false))),
   ("union", .structS false none (some (.memberS false))),
   ("service", .structS false
     (some [("version", .stringS true),
            ("operations", .listS false (.memberS false)),
            ("resources", .listS false (.memberS false)),
            ("rename", .mapS false (.stringS false) (.stringS false))])
     none),
   ("operation", .structS false
     (some [("input", .memberS false),
            ("output", .memberS false),
            ("errors", .listS false (.memberS false))])
     none),
   ("resource", .structS false
     (some [("identifiers", .mapS false (.identS false) (.memberS false)),
            ("create", .memberS false),
            ("put", .memberS false),
            ("read", .memberS false),
            ("update", .memberS false),
            ("delete", .memberS false),
            ("list", .memberS false),
            ("operations", .listS false (.memberS false)),
            ("collectionOperations", .listS false (.memberS false)),
            ("resources", .listS false (.memberS false))])
     none)]

/-- The entries of an object value; a non-object value has none (the
source would enumerate characters of a string there, which no registry
schema can reach because of the preceding token check). -/
def nodeEntries : PVal → List (String × PNode)
  | .obj e => e
  | _ => []

/-- Whether a value is an array (Array.isArray). -/
def isArrVal : PVal → Bool
  | .arr _ => true
  | _ => false

/-- The items of an array value. -/
def arrItems : PVal → List (Option PNode)
  | .arr items => items
  | _ => []

/-- JavaScript truthiness of a stored node value: empty strings, the
number zero and undefined are falsy; objects and arrays are truthy. -/
def numIsZeroJS (s : String) : Bool :=
  (s.toList.takeWhile (fun c => c ≠ 'e')).all (fun c => c = '0' || c = '.')

/-- Truthiness of a PVal. -/
def jsTruthyVal (v : PVal) : Bool :=
  match v with
  | .str s => decide (s ≠ "")
  | .num s => !numIsZeroJS s
  | .undef => false
  | .obj _ => true
  | .arr _ => true

/-- JSON string escaping (the common escapes; enough to render the
diagnostic text, which no claim observes). -/
def jsonEscape (s : String) : String :=
  String.mk (s.toList.foldr
    (fun c acc =>
      (if c = '"' then ['\\', '"']
       else if c = '\\' then ['\\', '\\']
       else if c = '\n' then ['\\', 'n']
       else if c = '\t' then ['\\', 't']
       else if c = '\r' then ['\\', 'r']
       else [c]) ++ acc)
    [])

/-- Comma-joined rendering of parts. -/
def joinComma : List String → String
  | [] => ""
  | [s] => s
  | s :: rest => s ++ "," ++ joinComma rest

/-- JSON rendering of a Position. -/
def jsonOfPosition (p : Position) : String :=
  "\x7b\"index\":" ++ toString p.index ++ ",\"line\":" ++ toString p.line ++
    ",\"column\":" ++ toString p.column ++ "\x7d"

/-- JSON rendering of a Token. -/
def jsonOfToken (t : Token) : String :=
  "\x7b\"type\":\"" ++ tokenTypeName t.type ++ "\",\"text\":\"" ++
    jsonEscape t.text ++ "\",\"range\":\x7b\"start\":" ++
    jsonOfPosition t.range.start ++ ",\"end\":" ++
    jsonOfPosition t.range.stop ++ "\x7d" ++
    (match t.value with
     | some v => ",\"value\":\"" ++ jsonEscape v ++ "\""
     | none => "") ++ "\x7d"

/-- JSON rendering of a key node. -/
def jsonOfKeyNode (k : KeyNode) : String :=
  "\x7b" ++
    (match k.value with
     | some v => "\"value\":\"" ++ jsonEscape v ++ "\","
     | none => "") ++
    "\"token\":" ++ jsonOfToken k.token ++ "\x7d"

mutual
/-- JSON.stringify of a Node (undefined properties omitted). -/
def jsonOfPNode : PNode → String
  | .mk k v t =>
    "\x7b" ++ joinComma
      ((match k with
        | some kn => ["\"key\":" ++ jsonOfKeyNode kn]
        | none => []) ++
       (match v with
        | .undef => []
        | vv => ["\"value\":" ++ jsonOfPVal vv]) ++
       (match t with
        | some tk => ["\"token\":" ++ jsonOfToken tk]
        | none => [])) ++ "\x7d"

/-- JSON.stringify of a value (undefined renders null inside arrays). -/
def jsonOfPVal : PVal → String
  | .str s => "\"" ++ jsonEscape s ++ "\""
  | .num s => s
  | .undef => "null"
  | .obj e => "\x7b" ++ joinComma (jsonOfEntries e) ++ "\x7d"
  | .arr items => "[" ++ joinComma (jsonOfItems items) ++ "]"

/-- JSON.stringify of object entries. -/
def jsonOfEntries : List (String × PNode) → List String
  | [] => []
  | (k, v) :: rest =>
    ("\"" ++ jsonEscape k ++ "\":" ++ jsonOfPNode v) :: jsonOfEntries rest

/-- JSON.stringify of array items. -/
def jsonOfItems : List (Option PNode) → List String
  | [] => []
  | some n :: rest => jsonOfPNode n :: jsonOfItems rest
  | none :: rest => "null" :: jsonOfItems rest
end

/-- Rendering of an optional node for string concatenation
(JSON.stringify of undefined concatenates as the text undefined). -/
def stringifyNodeOpt : Option PNode → String
  | some n => jsonOfPNode n
  | none => "undefined"

/-- Parser.addMemberReference. -/
def addMemberReference (d : PDoc) (value : Option PNode) : PDoc :=
  match value with
  | none => d
  | some v =>
    match v.token with
    | some tk =>
      if tk.type = TokenType.Identifier then
        addReference d (mkIdentifier (tk.value.getD "")) tk .Member
      else addMessage d "Expected shape identifier." tk .Error false
    | none => d

mutual
/-- Parser.validateValueAgainstSchema: recursive structural validation
of a parsed node against a schema.  Consumes no tokens; only appends
diagnostics and member references. -/
def vvas (dc : PDoc) (identifierToken : Token) (node : Option PNode)
    (schema : Option Schema) : PDoc :=
  match schema with
  | none => dc
  | some sch =>
    match node with
    | none =>
      addMessage dc ("Expected a value." ++ stringifyNodeOpt none)
        identifierToken .Error false
    | some nd =>
      match nd.token with
      | none =>
        addMessage dc ("Expected a value." ++ jsonOfPNode nd)
          identifierToken .Error false
      | some ntok =>
        match sch with
        | .identS _ =>
          if ntok.type ≠ TokenType.Identifier then
            addMessage dc "Expected an identifier." ntok .Error false
          else dc
        | .memberS _ =>
          if ntok.type ≠ TokenType.Identifier then
            addMessage dc "Expected an identifier." ntok .Error false
          else addMemberReference dc (some nd)
        | .structS _ fieldsOpt anyM =>
          if ¬(ntok.type = TokenType.Delimiter ∧ ntok.value = some "\x7b") then
            addMessage dc "Expected an object." ntok .Error false
          else
            let entries := nodeEntries nd.value
            let dc1 :=
              match fieldsOpt with
              | some fields =>
                vvasKnown (vvasMissing dc identifierToken fields entries)
                  identifierToken fields anyM entries
              | none => dc
            vvasAny dc1 identifierToken anyM entries
        | .listS _ mem =>
          if ¬(ntok.type = TokenType.Delimiter ∧ ntok.value = some "[" ∧
              isArrVal nd.value) then
            addMessage dc "Expected a list." ntok .Error false
          else vvasItems dc identifierToken mem (arrItems nd.value)
        | .mapS _ k v =>
          if ¬(ntok.type = TokenType.Delimiter ∧ ntok.value = some "\x7b") then
            addMessage dc "Expected a map." ntok .Error false
          else vvasMap dc identifierToken k v (nodeEntries nd.value)
        | .stringS _ =>
          if ntok.type ≠ TokenType.String then
            addMessage dc "Expected a string." ntok .Error false
          else dc
        | .otherS _ tag =>
          addMessage dc ("Not implemented yet " ++ tag ++ ".") ntok .Error false
termination_by (optW schema, 0)
decreasing_by
  all_goals
    apply Prod.Lex.left
    simp only [optW, schemaW, fieldsOptW, fieldsW]
    omega

/-- The missing-required-member loop of the structure case. -/
def vvasMissing (dc : PDoc) (identifierToken : Token)
    (fields : List (String × Schema)) (entries : List (String × PNode)) :
    PDoc :=
  match fields with
  | [] => dc
  | (fn, fs) :: rest =>
    let dc1 :=
      if fs.req && (lookupBy entries fn).isNone then
        addMessage dc ("Missing \x27" ++ fn ++ "\x27 member.")
          identifierToken .Error false
      else dc
    vvasMissing dc1 identifierToken rest entries
termination_by ((0 : Nat), fields.length)
decreasing_by
  apply Prod.Lex.right
  simp


/-- The member-validation loop of the structure case (anyMember takes
precedence over the declared field schema). -/
def vvasKnown (dc : PDoc) (identifierToken : Token)
    (fields : List (String × Schema)) (anyM : Option Schema)
    (entries : List (String × PNode)) : PDoc :=
  match entries with
  | [] => dc
  | (fn, fv) :: rest =>
    let dc1 :=
      match anyM with
      | some a => vvas dc (fv.token.getD identifierToken) (some fv) (some a)
      | none =>
        match hlk : lookupBy fields fn with
        | none =>
          addMessage dc ("Unexpected member \x27" ++ fn ++ "\x27.")
            (match fv.key with
             | some kn => kn.token
             | none => identifierToken) .Error false
        | some fsc =>
          vvas dc (fv.token.getD identifierToken) (some fv) (some fsc)
    vvasKnown dc1 identifierToken fields anyM rest
termination_by (1 + fieldsW fields + optW anyM, entries.length)
decreasing_by
  · apply Prod.Lex.left
    simp only [optW]
    omega
  · have key : ∀ (fs : List (String × Schema)) (nm : String) (sc : Schema),
        lookupBy fs nm = some sc → schemaW sc < fieldsW fs := by
      intro fs
      induction fs with
      | nil => intro nm sc h; simp [lookupBy] at h
      | cons hd tl ih =>
        intro nm sc h
        simp only [lookupBy] at h
        by_cases hk : hd.1 = nm
        · rw [if_pos hk] at h
          cases h
          simp only [fieldsW]
          omega
        · rw [if_neg hk] at h
          have := ih nm sc h
          cases hd
          simp only [fieldsW]
          omega
    have := key fields _ _ hlk
    apply Prod.Lex.left
    simp only [optW]
    omega
  · apply Prod.Lex.right
    simp

/-- The anyMember pass that runs over all entries of a structure body
regardless of the declared fields. -/
def vvasAny (dc : PDoc) (identifierToken : Token) (anyM : Option Schema)
    (entries : List (String × PNode)) : PDoc :=
  match entries with
  | [] => dc
  | (_, fv) :: rest =>
    vvasAny (vvas dc (fv.token.getD identifierToken) (some fv) anyM)
      identifierToken anyM rest
termination_by (1 + optW anyM, entries.length)
decreasing_by
  · apply Prod.Lex.left
    omega
  · apply Prod.Lex.right
    simp

/-- The per-item loop of the list case.  An undefined item would make
the source throw reading its token; it is skipped here. -/
def vvasItems (dc : PDoc) (identifierToken : Token) (mem : Schema)
    (items : List (Option PNode)) : PDoc :=
  match items with
  | [] => dc
  | some it :: rest =>
    vvasItems (vvas dc (it.token.getD identifierToken) (some it) (some mem))
      identifierToken mem rest
  | none :: rest => vvasItems dc identifierToken mem rest
termination_by (2 + schemaW mem, items.length)
decreasing_by
  · apply Prod.Lex.left
    simp only [optW]
    omega
  · apply Prod.Lex.right
    simp
  · apply Prod.Lex.right
    simp

/-- The per-entry loop of the map case: key then value. -/
def vvasMap (dc : PDoc) (identifierToken : Token) (k v : Schema)
    (entries : List (String × PNode)) : PDoc :=
  match entries with
  | [] => dc
  | (_, fv) :: rest =>
    let keyNodeAsNode : Option PNode :=
      fv.key.map (fun kn =>
        PNode.mk none
          (match kn.value with
           | some sv => PVal.str sv
           | none => PVal.undef) (some kn.token))
    let dc1 := vvas dc
      ((fv.key.map KeyNode.token).getD identifierToken) keyNodeAsNode (some k)
    let dc2 := vvas dc1 (fv.token.getD identifierToken) (some fv) (some v)
    vvasMap dc2 identifierToken k v rest
termination_by (2 + schemaW k + schemaW v, entries.length)
decreasing_by
  · apply Prod.Lex.left
    simp only [optW]
    omega
  · apply Prod.Lex.left
    simp only [optW]
    omega
  · apply Prod.Lex.right
    simp
end

/-- The parser state: the look-ahead token (currentToken), the tokens
not yet read from the stream, and the ParsedDocument being populated. -/
structure P where
  cur : Token
  rest : List Token
  d : PDoc

/-- The End sentinel the constructor builds when the stream is empty at
once (the lastToken fallback of advanceToken with a zero range). -/
def endToken0 : Token :=
  { type := .End, text := "", range := ⟨⟨0, 0, 0⟩, ⟨0, 0, 0⟩⟩, value := none }

/-- Parser construction: pull the first token as the look-ahead. -/
def pinit (ts : List Token) (d : PDoc) : P :=
  match ts with
  | [] => ⟨endToken0, [], d⟩
  | t :: r => ⟨t, r, d⟩

/-- Parser.advanceToken: take the next stream token, or freeze the last
token with its type replaced by End (so End re-yields at the same
range). -/
def padv (s : P) : P :=
  match s.rest with
  | [] => { s with cur := { s.cur with type := .End } }
  | t :: r => { s with cur := t, rest := r }

/-- Remaining-stream measure: tokens left plus one for a live
look-ahead. -/
def pmeas (s : P) : Nat :=
  s.rest.length + (if s.cur.type = TokenType.End then 0 else 1)

/-- Well-formed parser states: End is only ever the look-ahead of an
exhausted stream, and the stream itself never carries End tokens (the
lexer cannot yield them). -/
def pwf (s : P) : Prop :=
  (s.cur.type = TokenType.End → s.rest = []) ∧
  ∀ t ∈ s.rest, t.type ≠ TokenType.End

/-- Parser.isDelimiter. -/
def isDelimP (s : P) (v : String) : Bool :=
  s.cur.type == TokenType.Delimiter && s.cur.value == some v

/-- Parser.expectIdentifier: return and consume the look-ahead when it
is an Identifier token. -/
def expectIdentifier (s : P) : P × Option Token :=
  if s.cur.type = TokenType.Identifier then (padv s, some s.cur) else (s, none)

/-- Options of expectKeyValuePair. -/
structure EkvpOpts where
  optionalKey : Bool := false
  delim : Option String := none

/-- options?.delimiter or the default colon (an empty string is falsy
and also falls back). -/
def delimOf (opts : EkvpOpts) : String :=
  match opts.delim with
  | some dl => if dl = "" then ":" else dl
  | none => ":"

/-- Whether an optional token value starts with the given character
(undefined starts with nothing). -/
def valStarts (v : Option String) (pre : Char) : Bool :=
  match v with
  | some sv => sv.toList.head? = some pre
  | none => false

/-- substr(1): drop the first character. -/
def strTail (s : String) : String :=
  String.mk (s.toList.drop 1)

/-- value.charAt(0) of an optional token value. -/
def valCharAt0 (v : Option String) : Option Char :=
  match v with
  | some sv => sv.toList.head?
  | none => none

/-- Build the Node returned by the final return of expectKeyValuePair:
spread of the parsed value part under the parsed key. -/
def mergeKV (key : Option KeyNode) (v : Option PNode) : PNode :=
  match v with
  | some (.mk _ vv vt) => .mk key vv vt
  | none => .mk key .undef none

/-- An uppercase hexadecimal digit. -/
def hexDigitU (n : Nat) : Char :=
  if n < 10 then Char.ofNat ('0'.toNat + n) else Char.ofNat ('A'.toNat + (n - 10))

/-- encodeURIComponent, exact for ASCII input (multi-byte characters are
not split into UTF-8 octets; the rendered diagnostic text is not
observed by any claim). -/
def encChar (c : Char) : List Char :=
  if isAsciiLetter c || isDigitChar c || c = '-' || c = '_' || c = '.' ||
      c = '!' || c = '~' || c = '*' || c = '\x27' || c = '(' || c = ')' then
    [c]
  else ['%', hexDigitU (c.toNat / 16 % 16), hexDigitU (c.toNat % 16)]

/-- encodeURIComponent on a string. -/
def encodeURIComp (s : String) : String :=
  String.mk (s.toList.foldr (fun c acc => encChar c ++ acc) [])

/-- Insertion-ordered upsert: replace the value under an existing key in
place, or append a new key (JavaScript property assignment). -/
def upsertA {α : Type} : List (String × α) → String → α → List (String × α)
  | [], k, v => [(k, v)]
  | (k2, v2) :: rest, k, v =>
    if k2 = k then (k2, v) :: rest else (k2, v2) :: upsertA rest k v

/-- The version-format check of expectControlStatement. -/
def versionOk (s : String) : Bool :=
  match s.toList with
  | [a] => isDigitChar a
  | [a, '.', b] => isDigitChar a && isDigitChar b
  | _ => false

/-- Parser.addMember (the identifierToken parameter is unused in the
source too).  A stored pair always carries a key; on a missing key the
source would throw. -/
def addMember (dc : PDoc) (idf : Identifier) (_itok : Token) (v : PNode) :
    PDoc :=
  match v.key with
  | some kn =>
    let mid := forMember idf (showOpt kn.value)
    addReference (addShape dc mid kn.token) mid kn.token .Shape
  | none => dc

/-- The keyword set of aggregate and service shapes in the dispatch. -/
def isAggregateKeyword (v : String) : Bool :=
  v = "list" || v = "set" || v = "map" || v = "structure" || v = "union" ||
  v = "service" || v = "operation" || v = "resource"

/-- The keyword set of simple shapes in the dispatch. -/
def isSimpleKeyword (v : String) : Bool :=
  v = "string" || v = "blob" || v = "boolean" || v = "document" ||
  v = "byte" || v = "short" || v = "integer" || v = "long" ||
  v = "float" || v = "double" || v = "bigInteger" || v = "bigDecimal" ||
  v = "timestamp"

/-- Add a message to the document of a parser state. -/
def pmsg (s : P) (text : String) (tok : Token) (ty : MessageType)
    (after : Bool) : P :=
  { s with d := addMessage s.d text tok ty after }

mutual
/-- Parser.expectKeyValuePair.  Fueled: none models fuel exhaustion, the
value is the new state and the returned Node (none when the source
returns undefined). -/
def ekvp (fuel : Nat) (opts : EkvpOpts) (s : P) :
    Option (P × Option PNode) :=
  match fuel with
  | 0 => none
  | n + 1 =>
    match tplLoop n s with
    | none => none
    | some s1 =>
      let tok := s1.cur
      let keyAndState : Option KeyNode × P × Bool :=
        match tok.type with
        | .String => (some ⟨tok.value, tok⟩, padv s1, true)
        | .Number => (some ⟨tok.value, tok⟩, padv s1, true)
        | .Identifier => (some ⟨tok.value, tok⟩, padv s1, true)
        | _ => (none, s1, opts.optionalKey)
      match keyAndState with
      | (_, _, false) =>
        some (pmsg s1 "Expected key." s1.cur .Error false, none)
      | (key, s2, true) =>
        let delimiter := delimOf opts
        let hasKey := isDelimP s2 delimiter
        if ¬opts.optionalKey ∧ ¬hasKey then
          some (pmsg s2
            ("Expected \x27" ++ delimiter ++ " (" ++
              (match key with
               | some _ => "[object Object]"
               | none => "undefined") ++ ")\x27.") s2.cur .Error false,
            some (.mk none .undef (some tok)))
        else
          let s3 := if hasKey then padv s2 else s2
          let tokV := if hasKey then s3.cur else tok
          match tokV.type with
          | .String =>
            let s4 := if hasKey then padv s3 else s3
            some (s4, some (.mk key
              (match tokV.value with
               | some v => PVal.str v
               | none => PVal.undef) (some tokV)))
          | .Identifier =>
            let s4 := if hasKey then padv s3 else s3
            some (s4, some (.mk key
              (match tokV.value with
               | some v => PVal.str v
               | none => PVal.undef) (some tokV)))
          | .Number =>
            let s4 := if hasKey then padv s3 else s3
            some (s4, some (.mk key
              (match tokV.value with
               | some v => PVal.num v
               | none => PVal.undef) (some tokV)))
          | .Delimiter =>
            if tokV.value = some "[" then
              match expectArrayObject n s3 with
              | none => none
              | some (s4, v) => some (s4, some (mergeKV key v))
            else if tokV.value = some "\x7b" then
              match expectNodeObject n tokV s3 with
              | none => none
              | some (s4, v) => some (s4, some (mergeKV key v))
            else
              some (pmsg s3
                ("Expected value but found a delimiter. " ++
                  showOpt tokV.value) s3.cur .Error false,
                some (.mk key .undef none))
          | _ =>
            some (pmsg s3 ("Expected value. " ++ tokenTypeName tokV.type)
              s3.cur .Error false, some (.mk key .undef none))

termination_by structural fuel

/-- The leading-trait loop at the top of expectKeyValuePair. -/
def tplLoop (fuel : Nat) (s : P) : Option P :=
  match fuel with
  | 0 => none
  | n + 1 =>
    if s.cur.type == TokenType.Identifier && valStarts s.cur.value '@' then
      match expectTrait n s.cur s with
      | none => none
      | some s1 => tplLoop n s1
    else some s

termination_by structural fuel

/-- Parser.expectTrait. -/
def expectTrait (fuel : Nat) (prevTok : Token) (s : P) : Option P :=
  match fuel with
  | 0 => none
  | n + 1 =>
    let r := expectIdentifier s
    match r.2 with
    | none =>
      some (pmsg r.1 "Expected trait name." prevTok .Error false)
    | some idTok =>
      if idTok.text.toList.head? ≠ some '@' ∨ idTok.text.length = 1 then
        some (pmsg r.1 "Expected trait name." prevTok .Error false)
      else
        let d2 := addReference r.1.d
          (mkIdentifier (strTail (idTok.value.getD ""))) idTok .Trait
        let s2 := { r.1 with d := d2 }
        if isDelimP s2 "(" then
          match talLoop n s2 with
          | none => none
          | some s3 =>
            let s4 :=
              if ¬isDelimP s3 ")" then
                pmsg s3 "Expected \x27)\x27." s3.cur .Error false
              else s3
            some (padv s4)
        else some s2

termination_by structural fuel

/-- The trait-argument do-while loop of expectTrait. -/
def talLoop (fuel : Nat) (s : P) : Option P :=
  match fuel with
  | 0 => none
  | n + 1 =>
    let s1 := padv s
    if isDelimP s1 ")" then some s1
    else
      match ekvp n { optionalKey := true } s1 with
      | none => none
      | some (s2, _) =>
        if isDelimP s2 "," then talLoop n s2 else some s2

termination_by structural fuel

/-- Parser.expectControlStatement.  Reading length of an undefined value
would throw in the source; the look-ahead here always carries a value. -/
def expectControlStatement (fuel : Nat) (s : P) : Option P :=
  match fuel with
  | 0 => none
  | n + 1 =>
    let s0 :=
      if ¬valStarts s.cur.value '$' then
        pmsg s "Expected control statement key." s.cur .Error false
      else s
    let sepPref : Bool :=
      match s0.cur.value with
      | some v => v.length == 1
      | none => false
    let s1 := if sepPref then padv s0 else s0
    match ekvp n {} s1 with
    | none => none
    | some (s2, node) =>
      let value : PVal :=
        match node with
        | some nd => nd.value
        | none => .undef
      let keyNode : Option KeyNode := node.bind PNode.key
      let keyValue : Option String :=
        if !sepPref &&
            (match keyNode with
             | some kn => kn.token.type == TokenType.Identifier
             | none => false) then
          (keyNode.bind KeyNode.value).map strTail
        else keyNode.bind KeyNode.value
      let nodeTok : Token :=
        match node with
        | some nd => nd.token.getD s2.cur
        | none => s2.cur
      let keyTok : Token :=
        match keyNode with
        | some kn => kn.token
        | none => s2.cur
      let d3 :=
        if keyValue = some "version" then
          match value with
          | .str sv =>
            if ¬versionOk sv then
              addMessage s2.d
                "Version value must be in format \x27major\x27 or \x27major.minor\x27."
                nodeTok .Error false
            else s2.d
          | _ =>
            addMessage s2.d "Version value must be a string." nodeTok
              .Error false
        else
          addMessage s2.d "Only \x27version\x27 is supported." keyTok
            .Warning false
      let d4 :=
        if (match lookupBy d3.controls (showOpt keyValue) with
            | some vv => jsTruthyVal vv
            | none => false) then
          addMessage d3
            ("Control \x27" ++ showOpt keyValue ++ "\x27 is already defined.")
            keyTok .Error false
        else d3
      let d5 := { d4 with controls := upsertA d4.controls (showOpt keyValue) value }
      some { s2 with d := d5 }

termination_by structural fuel

/-- Parser.expectValue. -/
def expectValue (fuel : Nat) (s : P) : Option (P × Option PNode) :=
  match fuel with
  | 0 => none
  | n + 1 =>
    let tok := s.cur
    match tok.type with
    | .String => some (padv s, some (.mk none .undef (some tok)))
    | .Number => some (padv s, some (.mk none .undef (some tok)))
    | .Identifier => some (padv s, some (.mk none .undef (some tok)))
    | .Delimiter =>
      if tok.value = some "[" then expectArrayObject n s
      else if tok.value = some "\x7b" then expectNodeObject n tok s
      else some (s, none)
    | _ =>
      some (pmsg s "Expected value." s.cur .Error false, none)

termination_by structural fuel

/-- Parser.expectArrayObject. -/
def expectArrayObject (fuel : Nat) (s : P) : Option (P × Option PNode) :=
  match fuel with
  | 0 => none
  | n + 1 =>
    if ¬isDelimP s "[" then
      some (pmsg s "Expected \x27[\x27." s.cur .Error false, none)
    else
      let tok := s.cur
      match alLoop n [] s with
      | none => none
      | some (s2, items) =>
        let s3 :=
          if ¬isDelimP s2 "]" then
            pmsg s2 "Expected \x27]\x27." s2.cur .Error false
          else s2
        some (padv s3, some (.mk none (.arr items) (some tok)))

termination_by structural fuel

/-- The do-while loop of expectArrayObject. -/
def alLoop (fuel : Nat) (acc : List (Option PNode)) (s : P) :
    Option (P × List (Option PNode)) :=
  match fuel with
  | 0 => none
  | n + 1 =>
    let s1 := padv s
    if isDelimP s1 "]" then some (s1, acc)
    else
      match expectValue n s1 with
      | none => none
      | some (s2, v) =>
        let acc2 := acc ++ [v]
        if isDelimP s2 "," then alLoop n acc2 s2 else some (s2, acc2)

termination_by structural fuel

/-- Parser.expectNodeObject.  The after flag of the missing-brace
message is Boolean(afterToken), and every call site passes a token. -/
def expectNodeObject (fuel : Nat) (afterTok : Token) (s : P) :
    Option (P × Option PNode) :=
  match fuel with
  | 0 => none
  | n + 1 =>
    if ¬isDelimP s "\x7b" then
      some (pmsg s ("Expected \x27\x7b\x27. " ++ tokenTypeName s.cur.type)
        afterTok .Error true, none)
    else
      let tok := s.cur
      match olLoop n [] s with
      | none => none
      | some (s2, entries) =>
        let s3 :=
          if ¬isDelimP s2 "\x7d" then
            pmsg s2 "Expected \x27\x7d\x27." s2.cur .Error false
          else s2
        some (padv s3, some (.mk none (.obj entries) (some tok)))

termination_by structural fuel

/-- The do-while loop of expectNodeObject, carrying the object map.  A
pair with a key is stored under its key; a duplicate key gets one
diagnostic and is stored under the synthesized key (key followed by the
current entry count), which overwrites in place if that synthesized key
already exists. -/
def olLoop (fuel : Nat) (acc : List (String × PNode)) (s : P) :
    Option (P × List (String × PNode)) :=
  match fuel with
  | 0 => none
  | n + 1 =>
    let s1 := padv s
    if isDelimP s1 "\x7d" then some (s1, acc)
    else
      match ekvp n {} s1 with
      | none => none
      | some (s2, pairQ) =>
        let step : P × List (String × PNode) :=
          match pairQ with
          | some pr =>
            match pr.key with
            | some kn =>
              let kstr := showOpt kn.value
              match lookupBy acc kstr with
              | some _ =>
                let dK := addMessage s2.d
                  ("Key \x27" ++ showOpt kn.value ++
                    "\x27 is already defined.") kn.token .Error false
                ({ s2 with d := dK },
                  upsertA acc (kstr ++ toString acc.length) pr)
              | none => (s2, acc ++ [(kstr, pr)])
            | none => (s2, acc)
          | none => (s2, acc)
        if isDelimP step.1 "," then olLoop n step.2 step.1
        else some (step.1, step.2)

termination_by structural fuel

/-- The top-level statement loop of Parser.parse, dispatching on the
look-ahead. -/
def pparse (fuel : Nat) (s : P) : Option P :=
  match fuel with
  | 0 => none
  | n + 1 =>
    if s.cur.type = TokenType.End then some s
    else
      let stok := s.cur
      match stok.type with
      | .Identifier =>
        match stok.value with
        | some v =>
          if v = "metadata" then
            let sA := { s with d := enterSection s.d .Metadata stok }
            let sB := padv sA
            match ekvp n { delim := some "=" } sB with
            | none => none
            | some (sC, node) =>
              let value : PVal :=
                match node with
                | some nd => nd.value
                | none => .undef
              let keyNode := node.bind PNode.key
              let keyValue := keyNode.bind KeyNode.value
              let mkey := showOpt keyValue
              let dD :=
                if (match lookupBy sC.d.metadata mkey with
                    | some vv => jsTruthyVal vv
                    | none => false) then
                  addMessage sC.d
                    ("Metadata \x27" ++ showOpt keyValue ++
                      "\x27 is already defined.")
                    (match keyNode with
                     | some kn => kn.token
                     | none => sC.cur) .Warning false
                else sC.d
              let dE := { dD with metadata := upsertA dD.metadata mkey value }
              pparse n { sC with d := dE }
          else if v = "namespace" then
            let sA := { s with d := enterSection s.d .Shape stok }
            let nsTok := sA.cur
            let dB :=
              if sA.d.ns ≠ none then
                addMessage sA.d
                  "Namespace was already defined as \x27[object Object]\x27."
                  nsTok .Error false
              else sA.d
            let sB := padv { sA with d := dB }
            if sB.cur.type ≠ TokenType.Identifier then
              pparse n (pmsg sB "Expected namespace." nsTok .Error false)
            else
              pparse n (padv { sB with d := { sB.d with ns := sB.cur.value } })
          else if v = "use" then
            let sA := padv { s with d := enterSection s.d .Shape stok }
            let r := expectIdentifier sA
            match r.2 with
            | none =>
              pparse n (pmsg r.1 "Expected shape ID." stok .Error true)
            | some idTok =>
              let idf := mkIdentifier (idTok.value.getD "")
              let dC :=
                if idf.ns = none then
                  addMessage r.1.d "Shape ID must be absolute." idTok
                    .Error false
                else if idf.ns = some "" then
                  addMessage r.1.d "Missing namespace." idTok .Error false
                else r.1.d
              let dD :=
                if idf.member ≠ none then
                  addMessage dC
                    "Shapes IDs with member names cannot be imported with a use statement."
                    idTok .Error false
                else dC
              let dE := addReference (addShape dD idf idTok) idf idTok .Use
              pparse n { r.1 with d := dE }
          else if v = "apply" then
            let sA := padv { s with d := enterSection s.d .Shape stok }
            let r := expectIdentifier sA
            match r.2 with
            | none =>
              pparse n (pmsg r.1 "Expected shape ID." stok .Error true)
            | some idTok =>
              let dC := addReference r.1.d
                (mkIdentifier (idTok.value.getD "")) idTok .Apply
              let sC := { r.1 with d := dC }
              match expectTrait n stok sC with
              | none => none
              | some sD => pparse n sD
          else if isAggregateKeyword v then
            let sA := padv { s with d := enterSection s.d .Shape stok }
            let r := expectIdentifier sA
            let sC :=
              match r.2 with
              | none =>
                pmsg r.1 ("Expected " ++ v ++ " name.") stok .Error true
              | some _ => r.1
            match expectNodeObject n
                (match r.2 with
                 | some t => t
                 | none => stok) sC with
            | none => none
            | some (sD, nodeQ) =>
              match r.2 with
              | none => pparse n sD
              | some idTok =>
                let idf := mkIdentifier (idTok.value.getD "")
                let dE := addReference (addShape sD.d idf idTok) idf idTok
                  .Shape
                let dF :=
                  match nodeQ with
                  | some node =>
                    let dV := vvas dE idTok (some node)
                      (lookupBy schemaRegistry v)
                    (nodeEntries node.value).foldl
                      (fun dc fv => addMember dc idf idTok fv.2) dV
                  | none => dE
                pparse n { sD with d := dF }
          else if isSimpleKeyword v then
            let sA := padv { s with d := enterSection s.d .Shape s.cur }
            let r := expectIdentifier sA
            match r.2 with
            | none =>
              pparse n (pmsg r.1 ("Expected " ++ v ++ " name.") stok
                .Error true)
            | some idTok =>
              let idf := mkIdentifier (idTok.value.getD "")
              let dC := addReference (addShape r.1.d idf idTok) idf idTok .Shape
              pparse n { r.1 with d := dC }
          else
            match valCharAt0 stok.value with
            | some '@' =>
              match expectTrait n stok s with
              | none => none
              | some s1 => pparse n s1
            | some '$' =>
              let sA := { s with d := enterSection s.d .Control s.cur }
              match expectControlStatement n sA with
              | none => none
              | some s1 => pparse n s1
            | _ =>
              pparse n (padv (pmsg s
                ("Unexpected identifier: " ++ showOpt s.cur.value) s.cur
                .Error false))
        | none =>
          pparse n (padv (pmsg s
            ("Unexpected identifier: " ++ showOpt s.cur.value) s.cur
            .Error false))
      | _ =>
        pparse n (padv (pmsg s
          ("Unexpected token: " ++ showOpt stok.value ++ " (" ++
            encodeURIComp (showOpt stok.value) ++ ")") s.cur .Error false))
termination_by structural fuel
end

/-- Parser.parse on a finite token list: run the statement loop, then
finishParsing. -/
def parseRun (fuel : Nat) (ts : List Token) (d : PDoc) : Option PDoc :=
  (pparse fuel (pinit ts d)).map (fun s => finishParsing s.d)

/-- Totality statement for expectTrait at a given fuel. -/
def HET (fuel : Nat) : Prop :=
  ∀ (prevTok : Token) (s : P) (res : Option P),
    expectTrait fuel prevTok s = res → pwf s → 8 * pmeas s + 2 ≤ fuel →
    ∃ s2, res = some s2 ∧ pwf s2 ∧ pmeas s2 ≤ pmeas s ∧
      (s.cur.type = TokenType.Identifier → pmeas s2 < pmeas s)

/-- Totality statement for the leading-trait loop at a given fuel. -/
def Htpl (fuel : Nat) : Prop :=
  ∀ (s : P) (res : Option P), tplLoop fuel s = res → pwf s →
    8 * pmeas s + 3 ≤ fuel →
    ∃ s2, res = some s2 ∧ pwf s2 ∧ pmeas s2 ≤ pmeas s ∧
      ((s.cur.type == TokenType.Identifier &&
          valStarts s.cur.value '@') = true → pmeas s2 < pmeas s) ∧
      ((s.cur.type == TokenType.Identifier &&
          valStarts s.cur.value '@') = false → s2 = s)

/-- Totality statement for the trait-argument loop at a given fuel. -/
def Htal (fuel : Nat) : Prop :=
  ∀ (s : P) (res : Option P), talLoop fuel s = res → pwf s →
    8 * pmeas s + 3 ≤ fuel →
    ∃ s2, res = some s2 ∧ pwf s2 ∧ pmeas s2 ≤ pmeas s

/-- Totality statement for expectKeyValuePair at a given fuel. -/
def Hekvp (fuel : Nat) : Prop :=
  ∀ (opts : EkvpOpts) (s : P) (res : Option (P × Option PNode)),
    ekvp fuel opts s = res → pwf s → 8 * pmeas s + 5 ≤ fuel →
    ∃ s2 v, res = some (s2, v) ∧ pwf s2 ∧ pmeas s2 ≤ pmeas s ∧
      (s.cur.type = TokenType.Identifier → pmeas s2 < pmeas s)

/-- Totality statement for expectValue at a given fuel. -/
def HEV (fuel : Nat) : Prop :=
  ∀ (s : P) (res : Option (P × Option PNode)),
    expectValue fuel s = res → pwf s → 8 * pmeas s + 5 ≤ fuel →
    ∃ s2 v, res = some (s2, v) ∧ pwf s2 ∧ pmeas s2 ≤ pmeas s

/-- Totality statement for expectArrayObject at a given fuel. -/
def HEAO (fuel : Nat) : Prop :=
  ∀ (s : P) (res : Option (P × Option PNode)),
    expectArrayObject fuel s = res → pwf s → 8 * pmeas s + 4 ≤ fuel →
    ∃ s2 v, res = some (s2, v) ∧ pwf s2 ∧ pmeas s2 ≤ pmeas s

/-- Totality statement for the array-item loop at a given fuel. -/
def Hal (fuel : Nat) : Prop :=
  ∀ (acc : List (Option PNode)) (s : P)
    (res : Option (P × List (Option PNode))),
    alLoop fuel acc s = res → pwf s → 8 * pmeas s + 3 ≤ fuel →
    ∃ s2 items, res = some (s2, items) ∧ pwf s2 ∧ pmeas s2 ≤ pmeas s

/-- Totality statement for expectNodeObject at a given fuel. -/
def HENO (fuel : Nat) : Prop :=
  ∀ (afterTok : Token) (s : P) (res : Option (P × Option PNode)),
    expectNodeObject fuel afterTok s = res → pwf s →
    8 * pmeas s + 4 ≤ fuel →
    ∃ s2 v, res = some (s2, v) ∧ pwf s2 ∧ pmeas s2 ≤ pmeas s

/-- Totality statement for the object-entry loop at a given fuel. -/
def Hol (fuel : Nat) : Prop :=
  ∀ (acc : List (String × PNode)) (s : P)
    (res : Option (P × List (String × PNode))),
    olLoop fuel acc s = res → pwf s → 8 * pmeas s + 3 ≤ fuel →
    ∃ s2 entries, res = some (s2, entries) ∧ pwf s2 ∧ pmeas s2 ≤ pmeas s

/-- Totality statement for expectControlStatement at a given fuel. -/
def HECS (fuel : Nat) : Prop :=
  ∀ (s : P) (res : Option P), expectControlStatement fuel s = res →
    pwf s → 8 * pmeas s + 6 ≤ fuel →
    ∃ s2, res = some s2 ∧ pwf s2 ∧ pmeas s2 ≤ pmeas s ∧
      (s.cur.type = TokenType.Identifier → pmeas s2 < pmeas s)

def Hpp (fuel : Nat) : Prop :=
  ∀ s : P, pwf s → 8 * pmeas s + 7 ≤ fuel → (pparse fuel s).isSome = true

/-- An identifier token literal for concrete runs. -/
def mkIdTok (text : String) (i l c : Nat) : Token :=
  { type := .Identifier, text := text
    range := ⟨⟨i, l, c⟩, ⟨i + text.length, l, c + text.length⟩⟩
    value := some text }

/-- A sample token whose range ends at index 5. -/
def tokC8 : Token := mkIdTok "abc" 2 0 2

/-- Round-trip sample source. -/
def c3src : List Char := "a \"b\\n\" @t // c\nx 1.5e2".toList

/-- The token list the lexer yields on the round-trip sample. -/
def c3toks : List Token := (lexLoop 99 c3src pos0).getD []

/-- Token list of the duplicate-key object body sample. -/
def c9toks : List Token := (lexRun 100 "\x7b a: 1, a2: 2, a: 3 \x7d").getD []

/-- Literal rendering of a stored value, for comparable statements
about object maps (numerals keep their numeral text). -/
def pvalRender : PVal → String
  | .num s => "number " ++ s
  | .str s => "string " ++ s
  | .undef => "undefined"
  | .obj _ => "object"
  | .arr _ => "array"

/-- Observable outcome of expectNodeObject on the duplicate-key sample:
the stored keys with the rendered value of each stored pair, and the
diagnostic texts. -/
def c9result : Option (List (String × String) × List String) :=
  (expectNodeObject 100 endToken0 (pinit c9toks {})).map
    (fun r =>
      ((match r.2 with
        | some nd =>
          (nodeEntries nd.value).map (fun e => (e.1, pvalRender e.2.value))
        | none => []),
       r.1.d.messages.map (fun m => m.text)))

/-- A reference literal with the given token range, for findSymbol
runs. -/
def mkRefAt (name : String) (l1 c1 l2 c2 : Nat) : Reference :=
  { token := { type := .Identifier, text := name
               range := ⟨⟨0, l1, c1⟩, ⟨0, l2, c2⟩⟩, value := some name }
    identifier := mkIdentifier name
    type := .Shape }

/-- Overlapping synthetic references, sorted by start: a multi-line one
covering lines 0 to 20, then two short ones on lines 1 and 2. -/
def refsOverlap : List Reference :=
  [mkRefAt "a" 0 0 20 0, mkRefAt "b" 1 0 1 1, mkRefAt "c" 2 0 2 1]

/-- A document holding the overlapping synthetic references. -/
def docOverlap : PDoc := { references := refsOverlap }

/-- Disjoint synthetic references. -/
def refsDisj : List Reference :=
  [mkRefAt "a" 0 0 0 3, mkRefAt "b" 1 2 1 5]

/-- A document holding the disjoint synthetic references. -/
def docDisj : PDoc := { references := refsDisj }

/-- The Unknown shape sample: a document in namespace com.x with a
single reference to the relative name Foo and no shapes. -/
def refFoo : Reference :=
  { token := mkIdTok "Foo" 4 0 4, identifier := mkIdentifier "Foo"
    type := .Shape }

/-- Document with the unresolved Foo reference. -/
def docFoo : PDoc := { ns := some "com.x", references := [refFoo] }

/-- A sibling document in the same namespace defining Foo. -/
def docFooDef : PDoc :=
  { ns := some "com.x"
    relativeShapes := [("Foo", ("com.x#Foo", []))] }

/-- A reference to the absolute prelude id smithy.api#String. -/
def refAbsString : Reference :=
  { token := mkIdTok "smithy.api#String" 0 0 0
    identifier := mkIdentifier "smithy.api#String"
    type := .Member }

/-- A reference to the bare relative name String. -/
def refRelString : Reference :=
  { token := mkIdTok "String" 0 0 0
    identifier := mkIdentifier "String"
    type := .Member }

/-- Document referencing the absolute prelude id. -/
def docAbsString : PDoc := { ns := some "com.x", references := [refAbsString] }

/-- Document referencing the bare prelude name. -/
def docRelString : PDoc := { ns := some "com.x", references := [refRelString] }

/-- A document with one structural message, one stale semantic message
and parsedMessageCount 1, as left by finishParsing plus an earlier
validate. -/
def docFrame : PDoc :=
  { ns := some "com.x"
    messages := [⟨.Error, 0, 1, "structural"⟩, ⟨.Error, 1, 2, "stale"⟩]
    parsedMessageCount := 1 }

/-- Token list of a single simple-shape statement, for the parser
termination witness. -/
def c2toks : List Token := (lexRun 50 "string Foo").getD []

theorem skipUntilF_none_of_no_nl (src : List Char)
    (h : ∀ j : Nat, src[j]? ≠ some '\n') :
    ∀ (n : Nat) (p : Position),
      skipUntilF n (fun ch => ch = '\n') src p = none := by
  intro n
  induction n with
  | zero => intro p; rfl
  | succ m ih =>
    intro p
    rw [skipUntilF]
    cases hc : charAt src p.index with
    | none => exact ih _
    | some c =>
      have hcn : ¬(c = '\n') := fun he => h p.index (he ▸ hc)
      simp only [hc]
      rw [if_neg (by simpa using hcn)]
      exact ih _

/-- C1: the spec asserts the Lexer always terminates, in particular on a
source ending in a line comment with no trailing newline.  The code
disagrees: skipUntil has no end-of-input check, the empty charAt result
never matches the line-feed pattern, and the scan advances forever.  In
the fuel model, the run on the three-character source of two slashes and
the letter x yields none for every fuel, which is exactly divergence. -/
theorem c1_lexer_comment_divergence :
    ∀ fuel : Nat, lexRun fuel "//x" = none := by
  have hno : ∀ j : Nat, ("//x".toList)[j]? ≠ some '\n' := by
    intro j hj
    have hm : '\n' ∈ "//x".toList := List.getElem?_mem hj
    simp at hm
  intro fuel
  cases fuel with
  | zero => rfl
  | succ n =>
    have hstep : lexRun (n + 1) "//x" =
        (match skipUntilF (n + 1) (fun ch => ch = '\n') "//x".toList
            ⟨2, 0, 2⟩ with
         | none => none
         | some p4 => lexLoop n "//x".toList (lexAdv "//x".toList p4)) := rfl
    rw [hstep, skipUntilF_none_of_no_nl "//x".toList hno (n + 1) ⟨2, 0, 2⟩]

/-- C4: the claim states token ranges are exact zero-based positions,
with column counting characters since the last line break, on every
line.  The code disagrees: advance increments line and resets column
when it moves onto a line feed, not past it, so on the source a, line
feed, b, the token b starts at recorded column 1 although it is the
first character of line 1 (claimed column 0), and the token a ends at
recorded line 1 although it lies entirely on line 0. -/
theorem c4_lexer_position_shift :
    (lexRun 10 "a\nb").map
        (fun ts => ts.map (fun t => (t.range.start, t.range.stop))) =
      some [(⟨0, 0, 0⟩, ⟨1, 1, 0⟩), (⟨2, 1, 1⟩, ⟨3, 1, 2⟩)] ∧
    claimPositionAt "a\nb".toList 2 = ⟨2, 1, 0⟩ ∧
    claimPositionAt "a\nb".toList 1 = ⟨1, 0, 1⟩ ∧
    (⟨2, 1, 1⟩ : Position) ≠ claimPositionAt "a\nb".toList 2 ∧
    (⟨1, 1, 0⟩ : Position) ≠ claimPositionAt "a\nb".toList 1 := by
  refine ⟨by decide, by decide, by decide, by decide, by decide⟩

/-- C8 counterexample: the claim says an after-true message has both
startIndex and endIndex at the token end, a range after the last
character and not overlapping the token text.  On a token ending at
index 5, the recorded message has startIndex 4, not 5: the unit range
4 to 5 covers the final character of the token. -/
theorem c8_after_range_counterexample :
    ((addMessage {} "m" tokC8 .Error true).messages.map
        (fun m => (m.startIndex, m.endIndex))) = [((4 : Int), (5 : Int))] ∧
    (4 : Int) ≠ (5 : Int) := by
  refine ⟨by decide, by decide⟩

/-- C8 amended: a message added with the after option records the unit
range from one before the token end index to the token end index, i.e.
it covers the final character of the token rather than a zero-width
point past it. -/
theorem c8_after_range_amended (d : PDoc) (text : String) (tok : Token)
    (ty : MessageType) :
    (addMessage d text tok ty true).messages =
      d.messages ++
        [{ type := ty, startIndex := (tok.range.stop.index : Int) - 1,
           endIndex := (tok.range.stop.index : Int), text := text }] := rfl

theorem lexAdv_idx (src : List Char) (p : Position) :
    (lexAdv src p).index = p.index + 1 := rfl

theorem wsSkipF_le : ∀ (n : Nat) (src : List Char) (p q : Position),
    wsSkipF n src p = some (some q) → p.index ≤ q.index := by
  intro n
  induction n with
  | zero => intro src p q h; simp [wsSkipF] at h
  | succ m ih =>
    intro src p q h
    simp only [wsSkipF] at h
    cases hc : charAt src p.index with
    | none => simp only [hc] at h; cases h; exact Nat.le_refl _
    | some c =>
      simp only [hc] at h
      by_cases hw : isWsChar c
      · rw [if_pos hw] at h
        cases ha : (lexAdvance src p).2 with
        | none => rw [ha] at h; cases h
        | some c2 =>
          rw [ha] at h
          have h2 := ih src (lexAdvance src p).1 q h
          have h3 : (lexAdvance src p).1.index = p.index + 1 := rfl
          omega
      · rw [if_neg hw] at h; cases h; exact Nat.le_refl _

theorem skipWhileF_le : ∀ (n : Nat) (pr : Char → Bool) (src : List Char)
    (p q : Position), skipWhileF n pr src p = some q → p.index ≤ q.index := by
  intro n
  induction n with
  | zero => intro pr src p q h; simp [skipWhileF] at h
  | succ m ih =>
    intro pr src p q h
    simp only [skipWhileF] at h
    cases hc : charAt src p.index with
    | none => simp only [hc] at h; cases h; exact Nat.le_refl _
    | some c =>
      simp only [hc] at h
      by_cases hw : pr c
      · rw [if_pos hw] at h
        have h2 := ih pr src (lexAdv src p) q h
        have h3 : (lexAdv src p).index = p.index + 1 := rfl
        omega
      · rw [if_neg hw] at h; cases h; exact Nat.le_refl _

theorem skipUntilF_le : ∀ (n : Nat) (pr : Char → Bool) (src : List Char)
    (p q : Position), skipUntilF n pr src p = some q → p.index ≤ q.index := by
  intro n
  induction n with
  | zero => intro pr src p q h; simp [skipUntilF] at h
  | succ m ih =>
    intro pr src p q h
    rw [skipUntilF] at h
    cases hc : charAt src p.index with
    | none =>
      simp only [hc] at h
      have h2 := ih pr src (lexAdv src p) q h
      have h3 : (lexAdv src p).index = p.index + 1 := rfl
      omega
    | some c =>
      simp only [hc] at h
      by_cases hw : pr c
      · rw [if_pos hw] at h; cases h; exact Nat.le_refl _
      · rw [if_neg hw] at h
        have h2 := ih pr src (lexAdv src p) q h
        have h3 : (lexAdv src p).index = p.index + 1 := rfl
        omega

theorem hexLoop_le : ∀ (k : Nat) (src : List Char) (p : Position) (v : Nat),
    p.index ≤ (hexLoop src k p v).1.index := by
  intro k
  induction k with
  | zero => intro src p v; exact Nat.le_refl _
  | succ m ih =>
    intro src p v
    simp only [hexLoop]
    cases hc : (lexAdvance src p).2 with
    | none =>
      simp only [hc]
      exact Nat.le_succ _
    | some c =>
      simp only [hc]
      cases hv : valueFromHexChar c with
      | none => simp only [hv]; exact Nat.le_succ _
      | some d =>
        simp only [hv]
        have h2 := ih src (lexAdvance src p).1 (v * 16 + d)
        have h3 : (lexAdvance src p).1.index = p.index + 1 := rfl
        omega

theorem strLoopF_le : ∀ (n : Nat) (src : List Char) (p : Position)
    (acc : List Char) (q : Position) (r : Option (List Char)),
    strLoopF n src p acc = some (q, r) → p.index ≤ q.index := by
  intro n
  induction n with
  | zero => intro src p acc q r h; simp [strLoopF] at h
  | succ m ih =>
    intro src p acc q r h
    simp only [strLoopF] at h
    by_cases he : lexEnded src p
    · rw [if_pos he] at h; cases h; exact Nat.le_refl _
    · rw [if_neg he] at h
      have hadv : (lexAdvance src p).1.index = p.index + 1 := rfl
      cases hc : (lexAdvance src p).2 with
      | none =>
        simp only [hc] at h
        have h2 := ih src (lexAdvance src p).1 acc q r h
        omega
      | some c =>
        simp only [hc] at h
        by_cases hq : c = '"'
        · rw [if_pos hq] at h
          cases h
          have h4 : (lexAdv src (lexAdvance src p).1).index = p.index + 2 := rfl
          omega
        · rw [if_neg hq] at h
          by_cases hb : c = '\\'
          · rw [if_pos hb] at h
            have hadv2 : (lexAdvance src (lexAdvance src p).1).1.index =
              p.index + 2 := rfl
            by_cases hu : (lexAdvance src (lexAdvance src p).1).2 = some 'u'
            · rw [if_pos hu] at h
              have h2 := ih src
                (hexLoop src 4 (lexAdvance src (lexAdvance src p).1).1 0).1 _
                q r h
              have h3 := hexLoop_le 4 src
                (lexAdvance src (lexAdvance src p).1).1 0
              omega
            · rw [if_neg hu] at h
              have h2 := ih src (lexAdvance src (lexAdvance src p).1).1 _ q r h
              omega
          · rw [if_neg hb] at h
            have h2 := ih src (lexAdvance src p).1 _ q r h
            omega

theorem iteAdv_le (src : List Char) (p : Position) (c : Prop)
    [Decidable c] : p.index ≤ (if c then lexAdv src p else p).index := by
  split
  · rw [lexAdv_idx]; omega
  · exact Nat.le_refl _

theorem fracStage_le (fuel : Nat) (src : List Char) (p2 : Position)
    (fr : Position × Position) (h : fracStage fuel src p2 = some fr) :
    p2.index ≤ fr.1.index ∧ fr.1.index ≤ fr.2.index := by
  simp only [fracStage] at h
  split at h
  · split at h
    · cases h
    · rename_i p4 hsw
      cases h
      have h1 := skipWhileF_le _ _ _ _ _ hsw
      have h2 : (lexAdv src p2).index = p2.index + 1 := rfl
      dsimp only
      omega
  · cases h
    dsimp only
    omega

theorem expStage_le (fuel : Nat) (src : List Char) (p4 : Position)
    (ex : String × Position × Position) (h : expStage fuel src p4 = some ex) :
    p4.index ≤ ex.2.1.index ∧ ex.2.1.index ≤ ex.2.2.index := by
  simp only [expStage] at h
  split at h
  · split at h
    · cases h
    · rename_i p7 hsw
      cases h
      dsimp only
      have h1 := skipWhileF_le _ _ _ _ _ hsw
      have h2 : (lexAdv src p4).index = p4.index + 1 := rfl
      have h3 : (lexAdv src (lexAdv src p4)).index = p4.index + 2 := rfl
      by_cases hs : charTest (fun c => c = '+' || c = '-')
          (charAt src (lexAdv src p4).index) = true
      · rw [if_pos hs] at h1 ⊢
        omega
      · rw [if_neg hs] at h1 ⊢
        omega
  · cases h
    dsimp only
    omega

theorem numScanF_le (fuel : Nat) (src : List Char) (p0 q : Position)
    (str : String) (h : numScanF fuel src p0 = some (q, str)) :
    p0.index ≤ q.index := by
  simp only [numScanF] at h
  split at h
  · cases h
  · rename_i p2 heq1
    have hp1 : p0.index ≤
        (if charAt src p0.index = some '-' then lexAdv src p0 else p0).index :=
      iteAdv_le src p0 _
    have hp2 := skipWhileF_le _ _ _ _ _ heq1
    split at h
    · cases h
    · rename_i fr heq2
      have hfr := fracStage_le _ _ _ _ heq2
      split at h
      · cases h
      · rename_i ex heq3
        have hex := expStage_le _ _ _ _ heq3
        cases h
        omega

theorem chainFrom_mono (src : List Char) (i j : Nat) (ts : List Token)
    (hij : i ≤ j) (hch : chainFrom src j ts) : chainFrom src i ts := by
  cases ts with
  | nil => trivial
  | cons t ts' =>
    obtain ⟨h1, h2, h3, h4⟩ := hch
    exact ⟨Nat.le_trans hij h1, h2, h3, h4⟩

theorem strMk_append (a b : List Char) :
    String.mk a ++ String.mk b = String.mk (a ++ b) := rfl

theorem sliceL_append_mid (src : List Char) (i a b : Nat) (h1 : i ≤ a)
    (h2 : a ≤ b) : sliceL src i a ++ sliceL src a b = sliceL src i b := by
  unfold sliceL
  have hd : src.drop a = (src.drop i).drop (a - i) := by
    rw [List.drop_drop]
    congr 1
    omega
  rw [hd, ← List.take_add]
  congr 1
  omega

theorem sliceL_to_end (src : List Char) (i b : Nat) (h1 : i ≤ b) :
    sliceL src i b ++ sliceL src b src.length = sliceL src i src.length := by
  by_cases hb : b ≤ src.length
  · exact sliceL_append_mid src i b src.length h1 hb
  · unfold sliceL
    have h2 : src.drop b = [] := List.drop_eq_nil_of_le (by omega)
    rw [h2]
    simp only [List.take_nil, List.append_nil]
    have h3 : (src.drop i).length = src.length - i := List.length_drop i src
    rw [List.take_of_length_le (by omega), List.take_of_length_le (by omega)]

theorem chain_recon : ∀ (ts : List Token) (src : List Char) (i : Nat),
    chainFrom src i ts →
      recon src i ts = String.mk (sliceL src i src.length) := by
  intro ts
  induction ts with
  | nil => intro src i _; rfl
  | cons t ts' ih =>
    intro src i h
    obtain ⟨h1, h2, h3, h4⟩ := h
    show String.mk (sliceL src i t.range.start.index) ++ t.text ++
        recon src t.range.stop.index ts' = String.mk (sliceL src i src.length)
    rw [h3, ih src t.range.stop.index h4, strMk_append, strMk_append,
      sliceL_append_mid src i t.range.start.index t.range.stop.index h1 h2,
      sliceL_to_end src i t.range.stop.index (Nat.le_trans h1 h2)]

theorem lexLoop_chain : ∀ (n : Nat) (src : List Char) (p : Position)
    (ts : List Token), lexLoop n src p = some ts →
      chainFrom src p.index ts := by
  intro n
  induction n with
  | zero => intro src p ts h; simp [lexLoop] at h
  | succ m ih =>
    intro src p ts h
    simp only [lexLoop] at h
    split at h
    · cases h; trivial
    · split at h
      · cases h
      · cases h; trivial
      · rename_i p0 heqws
        have hp0 : p.index ≤ p0.index := wsSkipF_le _ _ _ _ heqws
        split at h
        · -- comment branch
          split at h
          · cases h
          · rename_i p4 hsu
            have h5 := skipUntilF_le _ _ _ _ _ hsu
            have h6 : p0.index ≤
                (if charAt src (lexAdv src (lexAdv src p0)).index = some '/'
                  then lexAdv src (lexAdv src (lexAdv src p0))
                  else lexAdv src (lexAdv src p0)).index := by
              split
              · show p0.index ≤ p0.index + 1 + 1 + 1; omega
              · show p0.index ≤ p0.index + 1 + 1; omega
            have h7 := ih src (lexAdv src p4) ts h
            refine chainFrom_mono src p.index (lexAdv src p4).index ts ?_ h7
            rw [lexAdv_idx]
            omega
        · split at h
          · -- line-break branch
            have h7 := ih src
              (lexAdv src (if charAt src p0.index = some '\r'
                then lexAdv src p0 else p0)) ts h
            refine chainFrom_mono src p.index _ ts ?_ h7
            have h8 := iteAdv_le src p0 (charAt src p0.index = some '\r')
            rw [lexAdv_idx]
            omega
          · split at h
            · -- delimiter branch
              cases hrec : lexLoop m src (lexAdv src p0) with
              | none => rw [hrec] at h; cases h
              | some ts' =>
                rw [hrec] at h
                cases h
                exact ⟨hp0, Nat.le_succ p0.index, rfl, ih _ _ _ hrec⟩
            · split at h
              · -- string branch
                split at h
                · cases h
                · rename_i p1 v hstr
                  have hs1 := strLoopF_le _ _ _ _ _ _ hstr
                  cases hrec : lexLoop m src p1 with
                  | none => rw [hrec] at h; cases h
                  | some ts' =>
                    rw [hrec] at h
                    cases h
                    exact ⟨hp0, hs1, rfl, ih _ _ _ hrec⟩
                · rename_i p1 hstr
                  have hs1 := strLoopF_le _ _ _ _ _ _ hstr
                  have h7 := ih src p1 ts h
                  exact chainFrom_mono src p.index p1.index ts (by omega) h7
              · split at h
                · -- number branch
                  split at h
                  · cases h
                  · rename_i r hnum
                    have hn1 := numScanF_le _ _ _ _ _ hnum
                    cases hrec : lexLoop m src r.1 with
                    | none => rw [hrec] at h; cases h
                    | some ts' =>
                      rw [hrec] at h
                      cases h
                      exact ⟨hp0, hn1, rfl, ih _ _ _ hrec⟩
                · split at h
                  · -- identifier branch
                    split at h
                    · cases h
                    · rename_i p1 hidt
                      have hs1 := skipWhileF_le _ _ _ _ _ hidt
                      cases hrec : lexLoop m src p1 with
                      | none => rw [hrec] at h; cases h
                      | some ts' =>
                        rw [hrec] at h
                        cases h
                        exact ⟨hp0, hs1, rfl, ih _ _ _ hrec⟩
                  · -- error branch
                    cases hrec : lexLoop m src (lexAdv src p0) with
                    | none => rw [hrec] at h; cases h
                    | some ts' =>
                      rw [hrec] at h
                      cases h
                      exact ⟨hp0, Nat.le_succ p0.index, rfl, ih _ _ _ hrec⟩

/-- C3: concatenating the texts of the yielded tokens with the discarded
spans between them (whitespace, comments, line breaks, and an
unterminated trailing string literal, which is consumed but yields no
token) reconstructs the source exactly, whenever the lexer run
terminates. -/
theorem c3_lexer_roundtrip (src : List Char) (fuel : Nat) (ts : List Token)
    (h : lexLoop fuel src pos0 = some ts) :
    recon src 0 ts = String.mk src := by
  have hch := lexLoop_chain fuel src pos0 ts h
  have hr := chain_recon ts src 0 hch
  rw [hr]
  congr 1
  show (src.drop 0).take (src.length - 0) = src
  simp

/-- C3 witness: a concrete source containing identifiers, a string with
an escape, a trait, a line comment and a number, on which the lexer run
terminates and the round trip reproduces the source. -/
theorem c3_lexer_roundtrip_witness :
    lexLoop 99 c3src pos0 = some c3toks ∧
      recon c3src 0 c3toks = String.mk c3src :=
  ⟨by decide, c3_lexer_roundtrip c3src 99 c3toks (by decide)⟩

/-- C9: the claim (and the spec) assert that with duplicate object keys
no previously stored pair is ever lost, even when a source key textually
collides with a synthesized key.  The code disagrees: on the object body
with keys a, a2 and again a, the duplicate a is stored under the
synthesized key a2 (key text plus entry count 2), silently overwriting
the pair that the source key a2 had stored; the resulting map holds the
values 1 and 3 and the pair with value 2 is gone, while only the
duplicate-key diagnostic for a was emitted. -/
theorem c9_duplicate_key_overwrite :
    c9result =
      some ([("a", "number 1"), ("a2", "number 3")],
        ["Key \x27a\x27 is already defined."]) := by
  decide

theorem msgOf_type (t : String) (tok : Token) (ty : MessageType) (a : Bool) :
    (msgOf t tok ty a).type = ty := by
  unfold msgOf; split <;> rfl

theorem unknownMsg_type (r : Reference) :
    (unknownMsg r).type = MessageType.Error :=
  msgOf_type _ _ _ _

theorem vrefsStep_pmc (files : List PDoc) (acc : PDoc) (r : Reference) :
    (vrefsStep files acc r).parsedMessageCount = acc.parsedMessageCount := by
  unfold vrefsStep; split <;> rfl

theorem vrefsStep_fields (files : List PDoc) (acc : PDoc) (r : Reference) :
    (vrefsStep files acc r).shapes = acc.shapes ∧
    (vrefsStep files acc r).relativeShapes = acc.relativeShapes ∧
    (vrefsStep files acc r).ns = acc.ns := by
  unfold vrefsStep; split <;> exact ⟨rfl, rfl, rfl⟩

theorem vrefsStep_msgs (files : List PDoc) (acc : PDoc) (r : Reference) :
    (vrefsStep files acc r).messages =
      acc.messages ++ (if unknownCond acc files r then [unknownMsg r] else []) := by
  unfold vrefsStep
  split
  · rfl
  · simp

theorem resolveId_congr {a b : PDoc} (id : Identifier)
    (h1 : a.relativeShapes = b.relativeShapes) (h2 : a.ns = b.ns) :
    resolveId a id = resolveId b id := by
  unfold resolveId; rw [h1, h2]

theorem isExternalShape_congr {a b : PDoc} (id : Identifier)
    (files : List PDoc) (h2 : a.ns = b.ns) :
    isExternalShape a id files = isExternalShape b id files := by
  unfold isExternalShape; rw [h2]

theorem unknownCond_congr {a b : PDoc} (files : List PDoc) (r : Reference)
    (h0 : a.shapes = b.shapes) (h1 : a.relativeShapes = b.relativeShapes)
    (h2 : a.ns = b.ns) :
    unknownCond a files r = unknownCond b files r := by
  unfold unknownCond
  rw [h0, resolveId_congr r.identifier h1 h2,
    isExternalShape_congr r.identifier files h2]

theorem foldl_vrefs (files : List PDoc) :
    ∀ (l : List Reference) (acc : PDoc),
      (l.foldl (vrefsStep files) acc).messages =
        acc.messages ++ l.filterMap
          (fun r => if unknownCond acc files r then some (unknownMsg r)
            else none) ∧
      (l.foldl (vrefsStep files) acc).parsedMessageCount =
        acc.parsedMessageCount ∧
      (l.foldl (vrefsStep files) acc).shapes = acc.shapes ∧
      (l.foldl (vrefsStep files) acc).relativeShapes = acc.relativeShapes ∧
      (l.foldl (vrefsStep files) acc).ns = acc.ns := by
  intro l
  induction l with
  | nil => intro acc; simp
  | cons r l ih =>
    intro acc
    obtain ⟨hf0, hf1, hf2⟩ := vrefsStep_fields files acc r
    obtain ⟨hm, hp, hs, hrel, hns⟩ := ih (vrefsStep files acc r)
    have hcongr : ∀ x : Reference,
        unknownCond (vrefsStep files acc r) files x = unknownCond acc files x :=
      fun x => unknownCond_congr files x hf0 hf1 hf2
    refine ⟨?_, ?_, ?_, ?_, ?_⟩
    · show (l.foldl (vrefsStep files) (vrefsStep files acc r)).messages = _
      rw [hm, vrefsStep_msgs]
      simp only [hcongr, List.filterMap_cons]
      split <;> simp
    · show (l.foldl (vrefsStep files) (vrefsStep files acc r)).parsedMessageCount = _
      rw [hp, vrefsStep_pmc]
    · show (l.foldl (vrefsStep files) (vrefsStep files acc r)).shapes = _
      rw [hs, hf0]
    · show (l.foldl (vrefsStep files) (vrefsStep files acc r)).relativeShapes = _
      rw [hrel, hf1]
    · show (l.foldl (vrefsStep files) (vrefsStep files acc r)).ns = _
      rw [hns, hf2]

theorem vrefs_msgs (d : PDoc) (files : List PDoc) :
    (validateReferences d files).messages =
      d.messages ++ (sortRefs d.references).filterMap
        (fun r => if unknownCond d files r then some (unknownMsg r)
          else none) := by
  show ((sortRefs d.references).foldl (vrefsStep files)
      { d with references := sortRefs d.references }).messages = _
  obtain ⟨hm, _, _, _, _⟩ :=
    foldl_vrefs files (sortRefs d.references)
      { d with references := sortRefs d.references }
  rw [hm]
  have hc : ∀ x : Reference,
      unknownCond { d with references := sortRefs d.references } files x =
        unknownCond d files x :=
    fun x => unknownCond_congr files x rfl rfl rfl
  simp only [hc]

theorem vrefs_pmc (d : PDoc) (files : List PDoc) :
    (validateReferences d files).parsedMessageCount = d.parsedMessageCount := by
  show ((sortRefs d.references).foldl (vrefsStep files)
      { d with references := sortRefs d.references }).parsedMessageCount = _
  exact (foldl_vrefs files _ _).2.1

theorem vns_pmc (d : PDoc) :
    (validateNamespace d).parsedMessageCount = d.parsedMessageCount := by
  unfold validateNamespace
  split
  · split <;> rfl
  · rfl

theorem vns_msgs_append (d : PDoc) :
    ∃ t, (validateNamespace d).messages = d.messages ++ t ∧
      ∀ m ∈ t, m.type = MessageType.Warning := by
  unfold validateNamespace
  split
  · split
    · refine ⟨_, rfl, ?_⟩
      intro m hm
      rw [List.mem_singleton] at hm
      subst hm
      exact msgOf_type _ _ _ _
    · exact ⟨[], by simp, by simp⟩
  · exact ⟨[], by simp, by simp⟩

theorem vns_fields (d : PDoc) :
    (validateNamespace d).shapes = d.shapes ∧
    (validateNamespace d).relativeShapes = d.relativeShapes ∧
    (validateNamespace d).ns = d.ns ∧
    (validateNamespace d).references = d.references := by
  unfold validateNamespace
  split
  · split <;> exact ⟨rfl, rfl, rfl, rfl⟩
  · exact ⟨rfl, rfl, rfl, rfl⟩

/-- C6: validate keeps the structural prefix intact: on a document whose
parsedMessageCount is within the message list, the count itself is
unchanged, the first parsedMessageCount messages come out unchanged and
in order, and every later (stale semantic) message is discarded and
recomputed, so that replacing the stale tail by arbitrary junk leaves
the result of validate unchanged. -/
theorem c6_validate_frame (d : PDoc) (files : List PDoc)
    (junk : List Message)
    (h : d.parsedMessageCount ≤ d.messages.length) :
    (validate d files).parsedMessageCount = d.parsedMessageCount ∧
    (validate d files).messages.take d.parsedMessageCount =
      d.messages.take d.parsedMessageCount ∧
    validate { d with messages := d.messages.take d.parsedMessageCount ++ junk } files =
      validate d files := by
  have h1 : (({ d with messages := d.messages.take d.parsedMessageCount } : PDoc).messages).length = d.parsedMessageCount := by
    show (d.messages.take d.parsedMessageCount).length = _
    rw [List.length_take]
    exact Nat.min_eq_left h
  refine ⟨?_, ?_, ?_⟩
  · show (validateReferences (validateNamespace { d with messages := d.messages.take d.parsedMessageCount }) files).parsedMessageCount = _
    rw [vrefs_pmc, vns_pmc]
  · obtain ⟨t1, ht1, _⟩ := vns_msgs_append { d with messages := d.messages.take d.parsedMessageCount }
    show ((validateReferences (validateNamespace { d with messages := d.messages.take d.parsedMessageCount }) files).messages).take d.parsedMessageCount = _
    rw [vrefs_msgs, ht1, List.append_assoc, List.take_left' h1]
  · have hjunk : (d.messages.take d.parsedMessageCount ++ junk).take
        d.parsedMessageCount = d.messages.take d.parsedMessageCount :=
      List.take_left' (by rw [List.length_take]; exact Nat.min_eq_left h)
    show validateReferences (validateNamespace { d with messages := (d.messages.take d.parsedMessageCount ++ junk).take d.parsedMessageCount }) files = validateReferences (validateNamespace { d with messages := d.messages.take d.parsedMessageCount }) files
    rw [hjunk]

theorem c6_validate_frame_witness :
    (validate docFrame []).parsedMessageCount = docFrame.parsedMessageCount ∧
    (validate docFrame []).messages.take docFrame.parsedMessageCount =
      docFrame.messages.take docFrame.parsedMessageCount ∧
    validate { docFrame with messages := docFrame.messages.take docFrame.parsedMessageCount ++ [⟨MessageType.Error, 5, 6, "junk"⟩] } [] =
      validate docFrame [] :=
  c6_validate_frame docFrame [] [⟨MessageType.Error, 5, 6, "junk"⟩]
    (by decide)

theorem countP_insertRef (p : Reference → Bool) (x : Reference) :
    ∀ l : List Reference,
      (insertRef x l).countP p = l.countP p + (if p x then 1 else 0)
  | [] => by simp [insertRef, List.countP_cons]
  | y :: l => by
    rw [insertRef]
    split
    · simp only [List.countP_cons, countP_insertRef p x l]
      omega
    · simp only [List.countP_cons]

theorem countP_sortRefs_go (p : Reference → Bool) :
    ∀ (l : List Reference) (acc : List Reference),
      (l.foldl (fun a x => insertRef x a) acc).countP p =
        acc.countP p + l.countP p
  | [], acc => by simp
  | x :: l, acc => by
    rw [List.foldl_cons, countP_sortRefs_go p l (insertRef x acc),
      countP_insertRef, List.countP_cons]
    omega

theorem countP_sortRefs (p : Reference → Bool) (l : List Reference) :
    (sortRefs l).countP p = l.countP p := by
  unfold sortRefs
  rw [countP_sortRefs_go]
  simp

theorem countP_congr_refs (p q : Reference → Bool) :
    ∀ l : List Reference, (∀ x ∈ l, p x = q x) → l.countP p = l.countP q
  | [], _ => rfl
  | x :: l, h => by
    rw [List.countP_cons, List.countP_cons,
      countP_congr_refs p q l (fun y hy => h y (List.mem_cons_of_mem x hy)),
      h x (List.mem_cons_self x l)]

theorem countP_zero_refs (p : Reference → Bool) :
    ∀ l : List Reference, (∀ x ∈ l, p x = false) → l.countP p = 0
  | [], _ => rfl
  | x :: l, h => by
    rw [List.countP_cons, h x (List.mem_cons_self x l),
      countP_zero_refs p l (fun y hy => h y (List.mem_cons_of_mem x hy))]
    simp

theorem count_eq_zero_of_warning (r : Reference) (l : List Message)
    (hl : ∀ m ∈ l, m.type = MessageType.Warning) :
    l.count (unknownMsg r) = 0 := by
  rw [List.count_eq_zero]
  intro hmem
  have h2 := hl _ hmem
  rw [unknownMsg_type r] at h2
  exact MessageType.noConfusion h2

theorem count_unknown_filterMap (d : PDoc) (files : List PDoc) (m : Message) :
    ∀ l : List Reference,
      (l.filterMap (fun x => if unknownCond d files x then some (unknownMsg x)
          else none)).count m =
        l.countP (fun x => unknownCond d files x && (unknownMsg x == m))
  | [] => rfl
  | x :: l => by
    by_cases hq : unknownCond d files x
    · by_cases hg : unknownMsg x = m
      · simp [List.filterMap_cons, List.countP_cons, List.count_cons, hq, hg,
          count_unknown_filterMap d files m l]
      · simp [List.filterMap_cons, List.countP_cons, List.count_cons, hq, hg,
          count_unknown_filterMap d files m l]
    · simp [List.filterMap_cons, List.countP_cons, hq,
        count_unknown_filterMap d files m l]

theorem validate_unknown_count (d : PDoc) (files : List PDoc) (r : Reference)
    (hpm : d.parsedMessageCount ≤ d.messages.length) :
    ((validate d files).messages.drop d.parsedMessageCount).count
        (unknownMsg r) =
      d.references.countP
        (fun x => unknownCond d files x && (unknownMsg x == unknownMsg r)) := by
  have h1 : (({ d with messages := d.messages.take d.parsedMessageCount } : PDoc).messages).length = d.parsedMessageCount := by
    show (d.messages.take d.parsedMessageCount).length = _
    rw [List.length_take]
    exact Nat.min_eq_left hpm
  obtain ⟨t1, ht1, hw⟩ := vns_msgs_append { d with messages := d.messages.take d.parsedMessageCount }
  obtain ⟨hs, hrel, hns, hrf⟩ := vns_fields { d with messages := d.messages.take d.parsedMessageCount }
  show (((validateReferences (validateNamespace { d with messages := d.messages.take d.parsedMessageCount }) files).messages).drop d.parsedMessageCount).count (unknownMsg r) = _
  rw [vrefs_msgs, ht1, List.append_assoc, List.drop_left' h1,
    List.count_append, count_eq_zero_of_warning r t1 hw, Nat.zero_add]
  have hcond : ∀ x : Reference,
      unknownCond (validateNamespace { d with messages := d.messages.take d.parsedMessageCount }) files x = unknownCond d files x :=
    fun x => unknownCond_congr files x hs hrel hns
  simp only [hcond]
  rw [show (validateNamespace { d with messages := d.messages.take d.parsedMessageCount }).references = d.references from hrf]
  rw [count_unknown_filterMap, countP_sortRefs]

/-- C5: a reference whose resolved id is not among the document shapes,
whose identifier is not a known prelude or simple-shape name, and which
no tracked document in the relevant namespace declares, gets exactly one
Unknown shape error from validate; and adding a tracked document in the
same namespace that declares the shape removes that diagnostic. -/
theorem c5_unknown_shape (d : PDoc) (files files2 : List PDoc)
    (r : Reference) (hr : r ∈ d.references)
    (hcount : d.references.count r = 1)
    (huniq : ∀ x ∈ d.references, unknownMsg x = unknownMsg r → x = r)
    (hpm : d.parsedMessageCount ≤ d.messages.length) :
    (unknownCond d files r = true →
      ((validate d files).messages.drop d.parsedMessageCount).count
        (unknownMsg r) = 1) ∧
    (∀ d2 ∈ files2,
      ((jsTruthyStrOpt r.identifier.ns && (d2.ns == r.identifier.ns)) ||
        (!jsTruthyStrOpt r.identifier.ns && (d2.ns == d.ns))) = true →
      (lookupBy d2.relativeShapes (toRelative r.identifier)).isSome = true →
      ((validate d files2).messages.drop d.parsedMessageCount).count
        (unknownMsg r) = 0) := by
  constructor
  · intro h1
    rw [validate_unknown_count d files r hpm]
    have hpt : ∀ x ∈ d.references,
        (unknownCond d files x && (unknownMsg x == unknownMsg r)) =
          (x == r) := by
      intro x hx
      by_cases hxr : x = r
      · subst hxr
        simp [h1]
      · have hne : unknownMsg x ≠ unknownMsg r :=
          fun he => hxr (huniq x hx he)
        rw [beq_eq_false_iff_ne.mpr hne, beq_eq_false_iff_ne.mpr hxr,
          Bool.and_false]
    rw [countP_congr_refs _ _ d.references hpt]
    exact hcount
  · intro d2 hd2 hmatch hlk
    have hext : isExternalShape d r.identifier files2 = true := by
      unfold isExternalShape
      rw [List.any_eq_true]
      exact ⟨d2, hd2, by simp only [hmatch, hlk, Bool.and_self]⟩
    have hcr : unknownCond d files2 r = false := by
      unfold unknownCond
      rw [hext]
      simp
    rw [validate_unknown_count d files2 r hpm]
    apply countP_zero_refs
    intro x hx
    by_cases hg : unknownMsg x = unknownMsg r
    · have hxr := huniq x hx hg
      subst hxr
      simp [hcr]
    · rw [beq_eq_false_iff_ne.mpr hg, Bool.and_false]

theorem c5_unknown_shape_witness :
    ((validate docFoo []).messages.drop docFoo.parsedMessageCount).count
        (unknownMsg refFoo) = 1 ∧
    ((validate docFoo [docFooDef]).messages.drop
        docFoo.parsedMessageCount).count (unknownMsg refFoo) = 0 :=
  ⟨(c5_unknown_shape docFoo [] [docFooDef] refFoo (by decide) (by decide)
      (by decide) (by decide)).1 (by decide),
   (c5_unknown_shape docFoo [] [docFooDef] refFoo (by decide) (by decide)
      (by decide) (by decide)).2 docFooDef (List.mem_cons_self docFooDef [])
      (by decide) (by decide)⟩

/-- C10: the claim states that isKnownReference returns false for every
identifier carrying an explicit namespace part.  It does not: the
namespace check is a JavaScript truthiness test, so the identifier
written #String carries an explicit (empty) namespace, yet passes the
whitelist because the empty string is falsy — isKnownReference returns
true for it. -/
theorem c10_isKnownReference_counterexample :
    (mkIdentifier "#String").ns ≠ none ∧
      isKnownReference (mkIdentifier "#String") = true := by
  exact ⟨by decide, by decide⟩

/-- C10 amended: the whitelist is skipped exactly for identifiers whose
namespace or member part is truthy (nonempty): isKnownReference is then
false, so the absolute reference smithy.api#String draws the Unknown
shape error from validate while the bare relative name String does
not. -/
theorem c10_isKnownReference_amended :
    (∀ id : Identifier,
      jsTruthyStrOpt id.ns = true ∨ jsTruthyStrOpt id.member = true →
      isKnownReference id = false) ∧
    (validate docAbsString []).messages = [unknownMsg refAbsString] ∧
    (validate docRelString []).messages = [] := by
  refine ⟨?_, by decide, by decide⟩
  intro id h
  unfold isKnownReference
  rcases h with h | h <;> simp [h]

theorem c10_isKnownReference_amended_witness :
    isKnownReference (mkIdentifier "smithy.api#String") = false :=
  c10_isKnownReference_amended.1 (mkIdentifier "smithy.api#String")
    (Or.inl (by decide))

theorem cmpPos_cases (l c : Nat) (r : Reference) :
    cmpPos l c r = 1 ∨ cmpPos l c r = -1 ∨ cmpPos l c r = 0 := by
  simp only [cmpPos]
  split_ifs <;> simp

theorem cmpPos_one_dest (l c : Nat) (r : Reference)
    (h : cmpPos l c r = 1) :
    r.token.range.stop.line < l ∨
      (r.token.range.stop.line = l ∧ r.token.range.stop.column < c) := by
  simp only [cmpPos] at h
  split_ifs at h with h1 h2 h3 h4 <;> try omega
  simp only [Bool.and_eq_true, decide_eq_true_eq] at h3
  exact Or.inr h3

theorem cmpPos_negone_dest (l c : Nat) (r : Reference)
    (h : cmpPos l c r = -1) :
    l < r.token.range.start.line ∨
      (r.token.range.start.line = l ∧ c < r.token.range.start.column) := by
  simp only [cmpPos] at h
  split_ifs at h with h1 h2 h3 h4 <;> try omega
  simp only [Bool.and_eq_true, decide_eq_true_eq] at h4
  exact Or.inr h4

theorem cmpPos_zero_dest (l c : Nat) (r : Reference)
    (h : cmpPos l c r = 0) :
    ¬ r.token.range.stop.line < l ∧ ¬ l < r.token.range.start.line ∧
      ¬(r.token.range.stop.line = l ∧ r.token.range.stop.column < c) ∧
      ¬(r.token.range.start.line = l ∧ c < r.token.range.start.column) := by
  simp only [cmpPos] at h
  split_ifs at h with h1 h2 h3 h4 <;> try omega
  simp only [Bool.and_eq_true, decide_eq_true_eq] at h3 h4
  exact ⟨h1, h2, h3, h4⟩

theorem refWfB_dest (r : Reference) (h : refWfB r = true) :
    r.token.range.start.line < r.token.range.stop.line ∨
      (r.token.range.start.line = r.token.range.stop.line ∧
        r.token.range.start.column ≤ r.token.range.stop.column) := by
  unfold refWfB posLeB at h
  simp only [Bool.or_eq_true, Bool.and_eq_true, decide_eq_true_eq,
    beq_iff_eq] at h
  exact h

theorem cmpPos_one_intro (l c : Nat) (r : Reference) (hw : refWfB r = true)
    (h : r.token.range.stop.line < l ∨
      (r.token.range.stop.line = l ∧ r.token.range.stop.column < c)) :
    cmpPos l c r = 1 := by
  have hwd := refWfB_dest r hw
  rcases cmpPos_cases l c r with hc | hc | hc
  · exact hc
  · have hd := cmpPos_negone_dest l c r hc
    exfalso; omega
  · have hd := cmpPos_zero_dest l c r hc
    exfalso
    rcases h with h | h
    · exact hd.1 h
    · exact hd.2.2.1 h

theorem cmpPos_negone_intro (l c : Nat) (r : Reference) (hw : refWfB r = true)
    (h : l < r.token.range.start.line ∨
      (r.token.range.start.line = l ∧ c < r.token.range.start.column)) :
    cmpPos l c r = -1 := by
  have hwd := refWfB_dest r hw
  rcases cmpPos_cases l c r with hc | hc | hc
  · have hd := cmpPos_one_dest l c r hc
    exfalso; omega
  · exact hc
  · have hd := cmpPos_zero_dest l c r hc
    exfalso
    rcases h with h | h
    · exact hd.2.1 h
    · exact hd.2.2.2 h

theorem posLeB_trans {p q r : Position} (h1 : posLeB p q = true)
    (h2 : posLeB q r = true) : posLeB p r = true := by
  simp only [posLeB, Bool.or_eq_true, Bool.and_eq_true, decide_eq_true_eq,
    beq_iff_eq] at h1 h2 ⊢
  omega

theorem chainDisjointB_wf :
    ∀ (l : List Reference), chainDisjointB l = true →
      ∀ i, (hi : i < l.length) → refWfB l[i] = true
  | [], _, i, hi => by simp at hi
  | [r], h, 0, _ => by simpa [chainDisjointB] using h
  | [r], _, i + 1, hi => by simp at hi
  | r :: s :: t, h, 0, _ => by
    simp only [chainDisjointB, Bool.and_eq_true] at h
    exact h.1.1
  | r :: s :: t, h, i + 1, hi => by
    simp only [chainDisjointB, Bool.and_eq_true] at h
    simp only [List.getElem_cons_succ]
    exact chainDisjointB_wf (s :: t) h.2 i (by simpa using hi)

theorem chainDisjointB_tail (r : Reference) (l : List Reference)
    (h : chainDisjointB (r :: l) = true) : chainDisjointB l = true := by
  match l with
  | [] => rfl
  | s :: t =>
    simp only [chainDisjointB, Bool.and_eq_true] at h
    exact h.2

theorem chainDisjointB_head_le (r : Reference) :
    ∀ (l : List Reference), chainDisjointB (r :: l) = true →
      ∀ j, (hj : j < l.length) →
        posLeB r.token.range.stop l[j].token.range.start = true
  | [], _, j, hj => by simp at hj
  | s :: t, h, 0, _ => by
    simp only [chainDisjointB, Bool.and_eq_true] at h
    exact h.1.2
  | s :: t, h, j + 1, hj => by
    have hj2 : j < t.length := by simpa using hj
    simp only [chainDisjointB, Bool.and_eq_true] at h
    simp only [List.getElem_cons_succ]
    have hs : posLeB s.token.range.stop (t[j]).token.range.start = true :=
      chainDisjointB_head_le s t h.2 j hj2
    have hw : refWfB s = true := chainDisjointB_wf (s :: t) h.2 0 (by simp)
    exact posLeB_trans (posLeB_trans h.1.2 hw) hs

theorem chainDisjointB_stop_start :
    ∀ (l : List Reference), chainDisjointB l = true →
      ∀ i j, (hi : i < l.length) → (hj : j < l.length) → i < j →
        posLeB l[i].token.range.stop l[j].token.range.start = true
  | [], _, i, j, hi, _, _ => by simp at hi
  | r :: t, h, 0, j + 1, _, hj, _ => by
    simp only [List.getElem_cons_succ]
    exact chainDisjointB_head_le r t h j (by simpa using hj)
  | r :: t, h, i + 1, j + 1, hi, hj, hij => by
    simp only [List.getElem_cons_succ]
    exact chainDisjointB_stop_start t (chainDisjointB_tail r t h) i j
      (by simpa using hi) (by simpa using hj) (by omega)

theorem cmp_one_left (line col : Nat) (l : List Reference)
    (hc : chainDisjointB l = true) (i j : Nat)
    (hi : i < l.length) (hj : j < l.length) (hji : j ≤ i)
    (h1 : cmpPos line col l[i] = 1) : cmpPos line col l[j] = 1 := by
  rcases Nat.eq_or_lt_of_le hji with he | hlt
  · subst he
    exact h1
  · have hd := cmpPos_one_dest line col _ h1
    have hss := chainDisjointB_stop_start l hc j i hj hi hlt
    have hwi := refWfB_dest _ (chainDisjointB_wf l hc i hi)
    apply cmpPos_one_intro line col _ (chainDisjointB_wf l hc j hj)
    simp only [posLeB, Bool.or_eq_true, Bool.and_eq_true, decide_eq_true_eq,
      beq_iff_eq] at hss
    omega

theorem cmp_negone_right (line col : Nat) (l : List Reference)
    (hc : chainDisjointB l = true) (i j : Nat)
    (hi : i < l.length) (hj : j < l.length) (hij : i ≤ j)
    (h1 : cmpPos line col l[i] = -1) : cmpPos line col l[j] = -1 := by
  rcases Nat.eq_or_lt_of_le hij with he | hlt
  · subst he
    exact h1
  · have hd := cmpPos_negone_dest line col _ h1
    have hss := chainDisjointB_stop_start l hc i j hi hj hlt
    have hwi := refWfB_dest _ (chainDisjointB_wf l hc i hi)
    apply cmpPos_negone_intro line col _ (chainDisjointB_wf l hc j hj)
    simp only [posLeB, Bool.or_eq_true, Bool.and_eq_true, decide_eq_true_eq,
      beq_iff_eq] at hss
    omega

theorem bsLoop_correct (arr : List Reference) (line col : Nat)
    (hc : chainDisjointB arr = true) (fuel : Nat) :
    ∀ left right : Int,
      (right + 1 - left).toNat ≤ fuel →
      0 ≤ left → right < (arr.length : Int) →
      (∀ (j : Nat) (hj : j < arr.length), (j : Int) < left →
        cmpPos line col arr[j] = 1) →
      (∀ (j : Nat) (hj : j < arr.length), right < (j : Int) →
        cmpPos line col arr[j] = -1) →
      (∃ k : Nat, ∃ hk : k < arr.length,
        bsLoop arr line col left right = (k : Int) ∧
          cmpPos line col arr[k] = 0) ∨
      (bsLoop arr line col left right < 0 ∧
        ∀ (j : Nat) (hj : j < arr.length), cmpPos line col arr[j] ≠ 0) := by
  induction fuel with
  | zero =>
    intro left right hfuel h0 hr hypL hypR
    have hlr : ¬ left ≤ right := by omega
    rw [bsLoop, if_neg hlr]
    refine Or.inr ⟨by omega, ?_⟩
    intro j hj heq
    by_cases hjl : (j : Int) < left
    · have := hypL j hj hjl
      omega
    · have := hypR j hj (by omega)
      omega
  | succ fuel ih =>
    intro left right hfuel h0 hr hypL hypR
    by_cases hlr : left ≤ right
    · rw [bsLoop, if_pos hlr]
      set m : Int := left + (((right - left).toNat / 2 : Nat) : Int) with hmdef
      have hm0 : left ≤ m := by omega
      have hm1 : m ≤ right := by omega
      have hmN : m.toNat < arr.length := by omega
      have hsome : arr[m.toNat]? = some arr[m.toNat] :=
        List.getElem?_eq_getElem hmN
      simp only [hsome]
      rcases cmpPos_cases line col arr[m.toNat] with hcv | hcv | hcv
      · rw [if_pos (by rw [hcv]; decide)]
        apply ih (m + 1) right (by omega) (by omega) hr
        · intro j hj hjl
          by_cases hj2 : (j : Int) < left
          · exact hypL j hj hj2
          · exact cmp_one_left line col arr hc m.toNat j hmN hj (by omega) hcv
        · exact hypR
      · rw [if_neg (by rw [hcv]; decide), if_pos (by rw [hcv]; decide)]
        apply ih left (m - 1) (by omega) h0 (by omega)
        · exact hypL
        · intro j hj hjr
          by_cases hj2 : right < (j : Int)
          · exact hypR j hj hj2
          · exact cmp_negone_right line col arr hc m.toNat j hmN hj (by omega)
              hcv
      · rw [if_neg (by rw [hcv]; decide), if_neg (by rw [hcv]; decide)]
        exact Or.inl ⟨m.toNat, hmN, by omega, hcv⟩
    · rw [bsLoop, if_neg hlr]
      refine Or.inr ⟨by omega, ?_⟩
      intro j hj heq
      by_cases hjl : (j : Int) < left
      · have := hypL j hj hjl
        omega
      · have := hypR j hj (by omega)
        omega

theorem bsLoopF_eq (arr : List Reference) (line col : Nat) :
    ∀ (fuel : Nat) (left right : Int),
      (right + 1 - left).toNat ≤ fuel →
      bsLoopF arr line col fuel left right =
        bsLoop arr line col left right := by
  intro fuel
  induction fuel with
  | zero =>
    intro left right hfuel
    have hlr : ¬ left ≤ right := by omega
    rw [bsLoop, if_neg hlr]
    rfl
  | succ fuel ih =>
    intro left right hfuel
    rw [bsLoop, bsLoopF]
    by_cases hlr : left ≤ right
    · rw [if_pos hlr, if_pos hlr]
      cases hm : arr[(left + (((right - left).toNat / 2 : Nat) : Int)).toNat]? with
      | none => simp only [hm]
      | some item =>
        simp only [hm]
        split_ifs with h1 h2
        · exact ih _ _ (by omega)
        · exact ih _ _ (by omega)
        · rfl
    · rw [if_neg hlr, if_neg hlr]

theorem findSymbol_eq_F (d : PDoc) (line col : Nat) :
    findSymbol d line col =
      (if bsLoopF d.references line col (d.references.length + 1) 0
          ((d.references.length : Int) - 1) ≥ 0 then
        d.references[(bsLoopF d.references line col (d.references.length + 1)
          0 ((d.references.length : Int) - 1)).toNat]?
      else none) := by
  rw [bsLoopF_eq d.references line col (d.references.length + 1) 0
    ((d.references.length : Int) - 1) (by omega)]
  rfl

/-- C7: the claim asserts that on a reference list sorted by (start
line, start column), findSymbol returns the containing reference (per
the three-way comparator) whenever it exists and is unique.  It does
not: on the sorted list a (0,0)-(20,0), b (1,0)-(1,1), c (2,0)-(2,1)
the position (10,0) is contained only in the multi-line reference a,
yet the comparator is not monotone on this list (b and c compare as
entirely before the position while a contains it), so the binary search
walks right past a and reports nothing. -/
theorem c7_findSymbol_counterexample :
    sortedByStartB refsOverlap = true ∧
    cmpPos 10 0 (mkRefAt "a" 0 0 20 0) = 0 ∧
    (∀ r ∈ refsOverlap, cmpPos 10 0 r = 0 → r = mkRefAt "a" 0 0 20 0) ∧
    findSymbol docOverlap 10 0 = none := by
  refine ⟨by decide, by decide, by decide, ?_⟩
  rw [findSymbol_eq_F]
  decide

/-- C7 amended: on a well-formed, pairwise disjoint (hence sorted)
reference list the binary search does agree with the linear containment
scan: a returned reference is a member containing the position per the
comparator, and a none answer means no reference contains it. -/
theorem c7_findSymbol_amended (d : PDoc) (line column : Nat)
    (hc : chainDisjointB d.references = true) :
    (∀ r : Reference, findSymbol d line column = some r →
      r ∈ d.references ∧ cmpPos line column r = 0) ∧
    (findSymbol d line column = none →
      ∀ r ∈ d.references, cmpPos line column r ≠ 0) := by
  have hmain := bsLoop_correct d.references line column hc
    d.references.length 0 ((d.references.length : Int) - 1)
    (by omega) (by omega) (by omega)
    (by intro j hj hjl; omega)
    (by intro j hj hjr; exfalso; omega)
  constructor
  · intro r hfind
    show r ∈ d.references ∧ cmpPos line column r = 0
    rcases hmain with ⟨k, hk, hbs, hcmp⟩ | ⟨hneg, hall⟩
    · have : findSymbol d line column = some d.references[k] := by
        show (if bsLoop d.references line column 0
              ((d.references.length : Int) - 1) ≥ 0 then
            d.references[(bsLoop d.references line column 0
              ((d.references.length : Int) - 1)).toNat]?
          else none) = some d.references[k]
        rw [hbs, if_pos (by omega)]
        rw [show ((k : Int)).toNat = k from by omega]
        exact List.getElem?_eq_getElem hk
      rw [this] at hfind
      obtain rfl : d.references[k] = r := by
        injection hfind
      exact ⟨List.getElem_mem hk, hcmp⟩
    · exfalso
      have : findSymbol d line column = none := by
        show (if bsLoop d.references line column 0
              ((d.references.length : Int) - 1) ≥ 0 then
            d.references[(bsLoop d.references line column 0
              ((d.references.length : Int) - 1)).toNat]?
          else none) = none
        rw [if_neg (by omega)]
      rw [this] at hfind
      exact Option.noConfusion hfind
  · intro hnone r hr
    rcases hmain with ⟨k, hk, hbs, hcmp⟩ | ⟨hneg, hall⟩
    · exfalso
      have : findSymbol d line column = some d.references[k] := by
        show (if bsLoop d.references line column 0
              ((d.references.length : Int) - 1) ≥ 0 then
            d.references[(bsLoop d.references line column 0
              ((d.references.length : Int) - 1)).toNat]?
          else none) = some d.references[k]
        rw [hbs, if_pos (by omega)]
        rw [show ((k : Int)).toNat = k from by omega]
        exact List.getElem?_eq_getElem hk
      rw [this] at hnone
      exact Option.noConfusion hnone
    · obtain ⟨i, hi, rfl⟩ := List.getElem_of_mem hr
      exact hall i hi

theorem c7_findSymbol_amended_witness :
    chainDisjointB docDisj.references = true ∧
    (mkRefAt "b" 1 2 1 5 ∈ docDisj.references ∧
      cmpPos 1 3 (mkRefAt "b" 1 2 1 5) = 0) :=
  ⟨by decide,
   (c7_findSymbol_amended docDisj 1 3 (by decide)).1 (mkRefAt "b" 1 2 1 5)
     (by
       rw [findSymbol_eq_F]
       decide)⟩

theorem padv_pwf (s : P) (h : pwf s) : pwf (padv s) := by
  obtain ⟨h1, h2⟩ := h
  unfold padv
  cases hr : s.rest with
  | nil =>
    refine ⟨fun _ => rfl, ?_⟩
    intro t ht
    simp at ht
  | cons t r =>
    refine ⟨?_, ?_⟩
    · intro hEnd
      exact absurd hEnd (h2 t (by rw [hr]; exact List.mem_cons_self t r))
    · intro u hu
      exact h2 u (by rw [hr]; exact List.mem_cons_of_mem t hu)

theorem padv_meas_lt (s : P) (h : pwf s)
    (hc : ¬ s.cur.type = TokenType.End) :
    pmeas (padv s) + 1 = pmeas s := by
  obtain ⟨h1, h2⟩ := h
  unfold pmeas padv
  cases hr : s.rest with
  | nil =>
    simp [hr, if_neg hc]
  | cons t r =>
    have ht : ¬ t.type = TokenType.End :=
      h2 t (by rw [hr]; exact List.mem_cons_self t r)
    simp [hr, if_neg hc, if_neg ht]

theorem padv_meas_le (s : P) (h : pwf s) : pmeas (padv s) ≤ pmeas s := by
  by_cases hc : s.cur.type = TokenType.End
  · have hr := h.1 hc
    unfold pmeas padv
    simp [hr]
  · have := padv_meas_lt s h hc
    omega

theorem pmeas_pos (s : P) (hc : ¬ s.cur.type = TokenType.End) :
    1 ≤ pmeas s := by
  unfold pmeas
  rw [if_neg hc]
  omega

theorem pmeas_zero_end (s : P) (hz : pmeas s = 0) :
    s.cur.type = TokenType.End := by
  by_contra hc
  have := pmeas_pos s hc
  omega

theorem tplLoop_noid (n : Nat) (s : P)
    (hc : ¬ s.cur.type = TokenType.Identifier) :
    tplLoop (n + 1) s = some s := by
  simp only [tplLoop]
  rw [if_neg]
  simp only [Bool.and_eq_true, beq_iff_eq]
  intro hx
  exact hc hx.1

theorem ekvp_end (n : Nat) (opts : EkvpOpts) (s : P) (hn : 2 ≤ n)
    (hc : s.cur.type = TokenType.End) :
    ∃ d2 v, ekvp n opts s = some ({ s with d := d2 }, v) ∧
      (opts.optionalKey = false → v = none) := by
  match n, hn with
  | (k + 2), _ =>
    have htpl : tplLoop (k + 1) s = some s :=
      tplLoop_noid k s (by rw [hc]; intro hx; exact TokenType.noConfusion hx)
    have hdelim : ∀ v0 : String, isDelimP s v0 = false := by
      intro v0
      simp [isDelimP, hc]
    simp only [ekvp, htpl, hc]
    cases hok : opts.optionalKey with
    | false =>
      exact ⟨_, _, rfl, fun _ => rfl⟩
    | true =>
      have hd2 : isDelimP s (delimOf opts) = false := hdelim _
      simp [hd2, hc]
      exact ⟨_, rfl⟩

theorem EV_end (n : Nat) (s : P) (hn : 1 ≤ n)
    (hc : s.cur.type = TokenType.End) :
    expectValue n s =
      some (pmsg s "Expected value." s.cur .Error false, none) := by
  match n, hn with
  | (k + 1), _ =>
    simp only [expectValue, hc]

theorem step_tpl (n : Nat) (ihET : HET n) (ihtpl : Htpl n) :
    Htpl (n + 1) := by
  intro s res hres hw hf
  subst hres
  simp only [tplLoop]
  split
  · rename_i hguard
    split
    · rename_i heq
      obtain ⟨s2, habs, _⟩ := ihET _ _ _ heq hw (by omega)
      exact Option.noConfusion habs
    · rename_i heq
      obtain ⟨s1x, hinj, hw1, hm1, hstrict⟩ := ihET _ _ _ heq hw (by omega)
      injection hinj with h
      subst h
      have hcid : s.cur.type = TokenType.Identifier := by
        simp only [Bool.and_eq_true, beq_iff_eq] at hguard
        exact hguard.1
      have hlt := hstrict hcid
      obtain ⟨s2, hres2, hw2, hm2, _, _⟩ := ihtpl _ _ rfl hw1 (by omega)
      exact ⟨s2, hres2, hw2, by omega, fun _ => by omega,
        fun hng => absurd hguard (by rw [hng]; exact Bool.noConfusion)⟩
  · rename_i hng
    refine ⟨s, rfl, hw, le_refl _, fun hg => absurd hg hng, fun _ => rfl⟩

theorem step_ET (n : Nat) (ihtal : Htal n) : HET (n + 1) := by
  intro prevTok s res hres hw hf
  subst hres
  simp only [expectTrait]
  by_cases hcid : s.cur.type = TokenType.Identifier
  · have hei : expectIdentifier s = (padv s, some s.cur) := by
      simp [expectIdentifier, hcid]
    simp only [hei]
    have hwp : pwf (padv s) := padv_pwf s hw
    have hne : ¬ s.cur.type = TokenType.End := by
      rw [hcid]
      intro hx
      exact TokenType.noConfusion hx
    have hlt : pmeas (padv s) + 1 = pmeas s := padv_meas_lt s hw hne
    split
    · exact ⟨_, rfl, hwp,
        show pmeas (padv s) ≤ pmeas s by omega,
        fun _ => show pmeas (padv s) < pmeas s by omega⟩
    · split
      · split
        · rename_i heq
          obtain ⟨s3, habs, _⟩ := ihtal _ _ heq hwp
            (show 8 * pmeas (padv s) + 3 ≤ n by omega)
          exact Option.noConfusion habs
        · rename_i heq
          obtain ⟨s3x, hinj, hw3, hm3⟩ := ihtal _ _ heq hwp
            (show 8 * pmeas (padv s) + 3 ≤ n by omega)
          injection hinj with h
          subst h
          split <;>
            exact ⟨_, rfl, padv_pwf _ hw3,
              le_trans (padv_meas_le _ hw3) (le_trans hm3
                (show pmeas (padv s) ≤ pmeas s by omega)),
              fun _ => lt_of_le_of_lt (le_trans (padv_meas_le _ hw3) hm3)
                (show pmeas (padv s) < pmeas s by omega)⟩
      · refine ⟨_, rfl, ?_, ?_, ?_⟩
        · exact hwp
        · exact show pmeas (padv s) ≤ pmeas s by omega
        · exact fun _ => show pmeas (padv s) < pmeas s by omega
  · have hei : expectIdentifier s = (s, none) := by
      simp [expectIdentifier, hcid]
    simp only [hei]
    exact ⟨_, rfl, hw, le_refl _, fun hx => absurd hx hcid⟩

theorem step_tal (n : Nat) (ihek : Hekvp n) (ihtal : Htal n) :
    Htal (n + 1) := by
  intro s res hres hw hf
  subst hres
  simp only [talLoop]
  by_cases hce : s.cur.type = TokenType.End
  · have hr0 : s.rest = [] := hw.1 hce
    have hpe : (padv s).cur.type = TokenType.End := by
      unfold padv
      rw [hr0]
    have hd1 : isDelimP (padv s) ")" = false := by
      simp [isDelimP, hpe]
    simp only [hd1]
    simp only [Bool.false_eq_true, if_false]
    obtain ⟨d2, v, hek⟩ := ekvp_end n { optionalKey := true } (padv s)
      (by omega) hpe
    simp only [hek]
    have hd2 : isDelimP { padv s with d := d2 } "," = false := by
      simp [isDelimP, hpe]
    simp only [hd2]
    simp only [Bool.false_eq_true, if_false]
    refine ⟨_, rfl, ?_, ?_⟩
    · exact padv_pwf s hw
    · exact show pmeas (padv s) ≤ pmeas s from padv_meas_le s hw
  · have hwp := padv_pwf s hw
    have hlt := padv_meas_lt s hw hce
    split
    · exact ⟨_, rfl, hwp, by omega⟩
    · split
      · rename_i heq
        obtain ⟨s2, v, habs, _⟩ := ihek _ _ _ heq hwp
          (show 8 * pmeas (padv s) + 5 ≤ n by omega)
        exact Option.noConfusion habs
      · rename_i heq
        obtain ⟨s2x, vx, hinj, hw2, hm2, _⟩ := ihek _ _ _ heq hwp
          (show 8 * pmeas (padv s) + 5 ≤ n by omega)
        injection hinj with h
        injection h with h1 h2
        subst h1
        split
        · obtain ⟨s3, hres3, hw3, hm3⟩ := ihtal _ _ rfl hw2 (by omega)
          exact ⟨s3, hres3, hw3, by omega⟩
        · exact ⟨_, rfl, hw2, by omega⟩

theorem pmeas_set_d (x : P) (d0 : PDoc) :
    pmeas { x with d := d0 } = pmeas x := rfl

theorem pmeas_pmsg (x : P) (t : String) (tok : Token) (ty : MessageType)
    (a : Bool) : pmeas (pmsg x t tok ty a) = pmeas x := rfl

theorem pwf_set_d (x : P) (d0 : PDoc) (h : pwf x) :
    pwf { x with d := d0 } := h

theorem padv_set_d_meas (x : P) (d0 : PDoc) :
    pmeas (padv { x with d := d0 }) = pmeas (padv x) := by
  obtain ⟨c, r, dd⟩ := x
  cases r <;> rfl

theorem padv_pmsg_meas (x : P) (t : String) (tok : Token)
    (ty : MessageType) (a : Bool) :
    pmeas (padv (pmsg x t tok ty a)) = pmeas (padv x) :=
  padv_set_d_meas x _

theorem step_EV (n : Nat) (ihEAO : HEAO n) (ihENO : HENO n) :
    HEV (n + 1) := by
  intro s res hres hw hf
  subst hres
  simp only [expectValue]
  split
  · exact ⟨_, _, rfl, padv_pwf s hw, padv_meas_le s hw⟩
  · exact ⟨_, _, rfl, padv_pwf s hw, padv_meas_le s hw⟩
  · exact ⟨_, _, rfl, padv_pwf s hw, padv_meas_le s hw⟩
  · split
    · exact ihEAO _ _ rfl hw (by omega)
    · split
      · exact ihENO _ _ _ rfl hw (by omega)
      · exact ⟨s, none, rfl, hw, le_refl _⟩
  · exact ⟨_, none, rfl, hw, le_refl _⟩

theorem step_EAO (n : Nat) (ihal : Hal n) : HEAO (n + 1) := by
  intro s res hres hw hf
  subst hres
  simp only [expectArrayObject]
  split
  · exact ⟨_, none, rfl, hw, le_refl _⟩
  · split
    · rename_i heq
      obtain ⟨s2, items, habs, _⟩ := ihal _ _ _ heq hw (by omega)
      exact Option.noConfusion habs
    · rename_i heq
      obtain ⟨s2x, itemsx, hinj, hw2, hm2⟩ := ihal _ _ _ heq hw (by omega)
      injection hinj with h
      injection h with h1 h2
      subst h1
      split
      · exact ⟨_, _, rfl, padv_pwf _ hw2,
          le_trans (padv_meas_le _ hw2) hm2⟩
      · exact ⟨_, _, rfl, padv_pwf _ hw2,
          le_trans (padv_meas_le _ hw2) hm2⟩

theorem step_al (n : Nat) (ihEV : HEV n) (ihal : Hal n) : Hal (n + 1) := by
  intro acc s res hres hw hf
  subst hres
  simp only [alLoop]
  by_cases hce : s.cur.type = TokenType.End
  · have hr0 : s.rest = [] := hw.1 hce
    have hpe : (padv s).cur.type = TokenType.End := by
      unfold padv
      rw [hr0]
    have hd1 : isDelimP (padv s) "]" = false := by
      simp [isDelimP, hpe]
    simp only [hd1]
    simp only [Bool.false_eq_true, if_false]
    have hev := EV_end n (padv s) (by omega) hpe
    simp only [hev]
    have hd2 : isDelimP
        (pmsg (padv s) "Expected value." (padv s).cur .Error false) "," =
        false := by
      simp [isDelimP, pmsg, hpe]
    simp only [hd2]
    simp only [Bool.false_eq_true, if_false]
    refine ⟨_, _, rfl, ?_, ?_⟩
    · exact padv_pwf s hw
    · exact show pmeas (padv s) ≤ pmeas s from padv_meas_le s hw
  · have hwp := padv_pwf s hw
    have hlt := padv_meas_lt s hw hce
    split
    · exact ⟨_, _, rfl, hwp, by omega⟩
    · split
      · rename_i heq
        obtain ⟨s2, v, habs, _⟩ := ihEV _ _ heq hwp
          (show 8 * pmeas (padv s) + 5 ≤ n by omega)
        exact Option.noConfusion habs
      · rename_i heq
        obtain ⟨s2x, vx, hinj, hw2, hm2⟩ := ihEV _ _ heq hwp
          (show 8 * pmeas (padv s) + 5 ≤ n by omega)
        injection hinj with h
        injection h with h1 h2
        subst h1
        split
        · obtain ⟨s3, items3, hres3, hw3, hm3⟩ := ihal _ _ _ rfl hw2
            (by omega)
          exact ⟨s3, items3, hres3, hw3, by omega⟩
        · exact ⟨_, _, rfl, hw2, by omega⟩

theorem step_ENO (n : Nat) (ihol : Hol n) : HENO (n + 1) := by
  intro afterTok s res hres hw hf
  subst hres
  simp only [expectNodeObject]
  split
  · exact ⟨_, none, rfl, hw, le_refl _⟩
  · split
    · rename_i heq
      obtain ⟨s2, entries, habs, _⟩ := ihol _ _ _ heq hw (by omega)
      exact Option.noConfusion habs
    · rename_i heq
      obtain ⟨s2x, entriesx, hinj, hw2, hm2⟩ := ihol _ _ _ heq hw
        (by omega)
      injection hinj with h
      injection h with h1 h2
      subst h1
      split
      · exact ⟨_, _, rfl, padv_pwf _ hw2,
          le_trans (padv_meas_le _ hw2) hm2⟩
      · exact ⟨_, _, rfl, padv_pwf _ hw2,
          le_trans (padv_meas_le _ hw2) hm2⟩

theorem step_ol (n : Nat) (ihek : Hekvp n) (ihol : Hol n) : Hol (n + 1) := by
  intro acc s res hres hw hf
  subst hres
  simp only [olLoop]
  by_cases hce : s.cur.type = TokenType.End
  · have hr0 : s.rest = [] := hw.1 hce
    have hpe : (padv s).cur.type = TokenType.End := by
      unfold padv
      rw [hr0]
    have hd1 : isDelimP (padv s) "\x7d" = false := by
      simp [isDelimP, hpe]
    simp only [hd1]
    simp only [Bool.false_eq_true, if_false]
    obtain ⟨d2, v, hek, hvn⟩ := ekvp_end n {} (padv s) (by omega) hpe
    have hv0 : v = none := hvn rfl
    subst hv0
    simp only [hek]
    have hd2 : isDelimP { padv s with d := d2 } "," = false := by
      simp [isDelimP, hpe]
    simp only [hd2]
    simp only [Bool.false_eq_true, if_false]
    refine ⟨_, _, rfl, ?_, ?_⟩
    · exact padv_pwf s hw
    · exact show pmeas (padv s) ≤ pmeas s from padv_meas_le s hw
  · have hwp := padv_pwf s hw
    have hlt := padv_meas_lt s hw hce
    split
    · exact ⟨_, _, rfl, hwp, by omega⟩
    · split
      · rename_i heq
        obtain ⟨s2, v, habs, _⟩ := ihek _ _ _ heq hwp
          (show 8 * pmeas (padv s) + 5 ≤ n by omega)
        exact Option.noConfusion habs
      · rename_i heq
        obtain ⟨s2x, vx, hinj, hw2, hm2, _⟩ := ihek _ _ _ heq hwp
          (show 8 * pmeas (padv s) + 5 ≤ n by omega)
        injection hinj with h
        injection h with h1 h2
        rw [h1, h2]
        rcases vx with _ | pr
        · split
          · obtain ⟨s3, e3, hres3, hw3, hm3⟩ := ihol _ _ _ rfl hw2
              (show 8 * pmeas s2x + 3 ≤ n by omega)
            exact ⟨s3, e3, hres3, hw3,
              le_trans hm3 (show pmeas s2x ≤ pmeas s by omega)⟩
          · exact ⟨_, _, rfl, hw2, show pmeas s2x ≤ pmeas s by omega⟩
        · cases hpk : pr.key with
          | none =>
            simp only [hpk]
            split
            · obtain ⟨s3, e3, hres3, hw3, hm3⟩ := ihol _ _ _ rfl hw2
                (show 8 * pmeas s2x + 3 ≤ n by omega)
              exact ⟨s3, e3, hres3, hw3,
                le_trans hm3 (show pmeas s2x ≤ pmeas s by omega)⟩
            · exact ⟨_, _, rfl, hw2, show pmeas s2x ≤ pmeas s by omega⟩
          | some kn =>
            simp only [hpk]
            cases hlk : lookupBy acc (showOpt kn.value) with
            | some old =>
              simp only [hlk]
              split
              · obtain ⟨s3, e3, hres3, hw3, hm3⟩ := ihol
                  (upsertA acc (showOpt kn.value ++ toString acc.length) pr)
                  { s2x with d := addMessage s2x.d ("Key \x27" ++ showOpt kn.value ++ "\x27 is already defined.") kn.token .Error false }
                  _ rfl (pwf_set_d _ _ hw2)
                  (show 8 * pmeas s2x + 3 ≤ n by omega)
                exact ⟨s3, e3, hres3, hw3,
                  le_trans hm3 (show pmeas s2x ≤ pmeas s by omega)⟩
              · exact ⟨_, _, rfl, pwf_set_d _ _ hw2,
                  show pmeas s2x ≤ pmeas s by omega⟩
            | none =>
              simp only [hlk]
              split
              · obtain ⟨s3, e3, hres3, hw3, hm3⟩ := ihol _ _ _ rfl hw2
                  (show 8 * pmeas s2x + 3 ≤ n by omega)
                exact ⟨s3, e3, hres3, hw3,
                  le_trans hm3 (show pmeas s2x ≤ pmeas s by omega)⟩
              · exact ⟨_, _, rfl, hw2, show pmeas s2x ≤ pmeas s by omega⟩

theorem step_ekvp (n : Nat) (ihtpl : Htpl n) (ihEAO : HEAO n)
    (ihENO : HENO n) : Hekvp (n + 1) := by
  intro opts s res hres hw hf
  subst hres
  simp only [ekvp]
  split
  · rename_i heq
    obtain ⟨s1, habs, _⟩ := ihtpl _ _ heq hw (by omega)
    exact Option.noConfusion habs
  · rename_i heq
    obtain ⟨s1x, hinj, hw1, hm1, hstrict1, hsame1⟩ := ihtpl _ _ heq hw
      (by omega)
    injection hinj with h
    rw [h]
    have hkey : s.cur.type = TokenType.Identifier →
        pmeas s1x < pmeas s ∨ s1x = s := by
      intro hcid
      cases hb : (s.cur.type == TokenType.Identifier &&
          valStarts s.cur.value '@') with
      | true => exact Or.inl (hstrict1 hb)
      | false => exact Or.inr (hsame1 hb)
    cases hct : s1x.cur.type with
    | String =>
      have hnE : ¬ s1x.cur.type = TokenType.End := by
        rw [hct]
        exact fun hx => TokenType.noConfusion hx
      have hwA : pwf (padv s1x) := padv_pwf s1x hw1
      have hltA : pmeas (padv s1x) + 1 = pmeas s1x :=
        padv_meas_lt s1x hw1 hnE
      by_cases hTop : ¬opts.optionalKey = true ∧
          ¬isDelimP (padv s1x) (delimOf opts) = true
      · simp only [if_pos hTop]
        exact ⟨_, _, rfl, hwA,
          show pmeas (padv s1x) ≤ pmeas s by omega,
          fun _ => show pmeas (padv s1x) < pmeas s by omega⟩
      · simp only [if_neg hTop]
        by_cases hk : isDelimP (padv s1x) (delimOf opts) = true
        · simp only [if_pos hk]
          have hwB : pwf (padv (padv s1x)) := padv_pwf _ hwA
          have hleB : pmeas (padv (padv s1x)) ≤ pmeas (padv s1x) :=
            padv_meas_le _ hwA
          split
          · exact ⟨_, _, rfl, padv_pwf _ hwB,
              show pmeas (padv (padv (padv s1x))) ≤ pmeas s by
                have := padv_meas_le (padv (padv s1x)) hwB
                omega,
              fun _ => show pmeas (padv (padv (padv s1x))) < pmeas s by
                have := padv_meas_le (padv (padv s1x)) hwB
                omega⟩
          · exact ⟨_, _, rfl, padv_pwf _ hwB,
              show pmeas (padv (padv (padv s1x))) ≤ pmeas s by
                have := padv_meas_le (padv (padv s1x)) hwB
                omega,
              fun _ => show pmeas (padv (padv (padv s1x))) < pmeas s by
                have := padv_meas_le (padv (padv s1x)) hwB
                omega⟩
          · exact ⟨_, _, rfl, padv_pwf _ hwB,
              show pmeas (padv (padv (padv s1x))) ≤ pmeas s by
                have := padv_meas_le (padv (padv s1x)) hwB
                omega,
              fun _ => show pmeas (padv (padv (padv s1x))) < pmeas s by
                have := padv_meas_le (padv (padv s1x)) hwB
                omega⟩
          · split
            · split
              · rename_i heq2
                obtain ⟨s4, v4, habs, _⟩ := ihEAO _ _ heq2 hwB
                  (show 8 * pmeas (padv (padv s1x)) + 4 ≤ n by omega)
                exact Option.noConfusion habs
              · rename_i heq2
                obtain ⟨s4x, v4x, hinj2, hw4, hm4⟩ := ihEAO _ _ heq2 hwB
                  (show 8 * pmeas (padv (padv s1x)) + 4 ≤ n by omega)
                injection hinj2 with h2
                injection h2 with h2a h2b
                rw [h2a, h2b]
                exact ⟨_, _, rfl, hw4,
                  le_trans hm4
                    (show pmeas (padv (padv s1x)) ≤ pmeas s by omega),
                  fun _ => lt_of_le_of_lt hm4
                    (show pmeas (padv (padv s1x)) < pmeas s by omega)⟩
            · split
              · split
                · rename_i heq2
                  obtain ⟨s4, v4, habs, _⟩ := ihENO _ _ _ heq2 hwB
                    (show 8 * pmeas (padv (padv s1x)) + 4 ≤ n by omega)
                  exact Option.noConfusion habs
                · rename_i heq2
                  obtain ⟨s4x, v4x, hinj2, hw4, hm4⟩ := ihENO _ _ _ heq2
                    hwB
                    (show 8 * pmeas (padv (padv s1x)) + 4 ≤ n by omega)
                  injection hinj2 with h2
                  injection h2 with h2a h2b
                  rw [h2a, h2b]
                  exact ⟨_, _, rfl, hw4,
                    le_trans hm4
                      (show pmeas (padv (padv s1x)) ≤ pmeas s by omega),
                    fun _ => lt_of_le_of_lt hm4
                      (show pmeas (padv (padv s1x)) < pmeas s by omega)⟩
              · exact ⟨_, _, rfl, hwB,
                  show pmeas (padv (padv s1x)) ≤ pmeas s by omega,
                  fun _ => show pmeas (padv (padv s1x)) < pmeas s by
                    omega⟩
          · exact ⟨_, _, rfl, hwB,
              show pmeas (padv (padv s1x)) ≤ pmeas s by omega,
              fun _ => show pmeas (padv (padv s1x)) < pmeas s by omega⟩
        · simp only [if_neg hk, hct]
          exact ⟨_, _, rfl, hwA,
            show pmeas (padv s1x) ≤ pmeas s by omega,
            fun _ => show pmeas (padv s1x) < pmeas s by omega⟩
    | Number =>
      have hnE : ¬ s1x.cur.type = TokenType.End := by
        rw [hct]
        exact fun hx => TokenType.noConfusion hx
      have hwA : pwf (padv s1x) := padv_pwf s1x hw1
      have hltA : pmeas (padv s1x) + 1 = pmeas s1x :=
        padv_meas_lt s1x hw1 hnE
      by_cases hTop : ¬opts.optionalKey = true ∧
          ¬isDelimP (padv s1x) (delimOf opts) = true
      · simp only [if_pos hTop]
        exact ⟨_, _, rfl, hwA,
          show pmeas (padv s1x) ≤ pmeas s by omega,
          fun _ => show pmeas (padv s1x) < pmeas s by omega⟩
      · simp only [if_neg hTop]
        by_cases hk : isDelimP (padv s1x) (delimOf opts) = true
        · simp only [if_pos hk]
          have hwB : pwf (padv (padv s1x)) := padv_pwf _ hwA
          have hleB : pmeas (padv (padv s1x)) ≤ pmeas (padv s1x) :=
            padv_meas_le _ hwA
          split
          · exact ⟨_, _, rfl, padv_pwf _ hwB,
              show pmeas (padv (padv (padv s1x))) ≤ pmeas s by
                have := padv_meas_le (padv (padv s1x)) hwB
                omega,
              fun _ => show pmeas (padv (padv (padv s1x))) < pmeas s by
                have := padv_meas_le (padv (padv s1x)) hwB
                omega⟩
          · exact ⟨_, _, rfl, padv_pwf _ hwB,
              show pmeas (padv (padv (padv s1x))) ≤ pmeas s by
                have := padv_meas_le (padv (padv s1x)) hwB
                omega,
              fun _ => show pmeas (padv (padv (padv s1x))) < pmeas s by
                have := padv_meas_le (padv (padv s1x)) hwB
                omega⟩
          · exact ⟨_, _, rfl, padv_pwf _ hwB,
              show pmeas (padv (padv (padv s1x))) ≤ pmeas s by
                have := padv_meas_le (padv (padv s1x)) hwB
                omega,
              fun _ => show pmeas (padv (padv (padv s1x))) < pmeas s by
                have := padv_meas_le (padv (padv s1x)) hwB
                omega⟩
          · split
            · split
              · rename_i heq2
                obtain ⟨s4, v4, habs, _⟩ := ihEAO _ _ heq2 hwB
                  (show 8 * pmeas (padv (padv s1x)) + 4 ≤ n by omega)
                exact Option.noConfusion habs
              · rename_i heq2
                obtain ⟨s4x, v4x, hinj2, hw4, hm4⟩ := ihEAO _ _ heq2 hwB
                  (show 8 * pmeas (padv (padv s1x)) + 4 ≤ n by omega)
                injection hinj2 with h2
                injection h2 with h2a h2b
                rw [h2a, h2b]
                exact ⟨_, _, rfl, hw4,
                  le_trans hm4
                    (show pmeas (padv (padv s1x)) ≤ pmeas s by omega),
                  fun _ => lt_of_le_of_lt hm4
                    (show pmeas (padv (padv s1x)) < pmeas s by omega)⟩
            · split
              · split
                · rename_i heq2
                  obtain ⟨s4, v4, habs, _⟩ := ihENO _ _ _ heq2 hwB
                    (show 8 * pmeas (padv (padv s1x)) + 4 ≤ n by omega)
                  exact Option.noConfusion habs
                · rename_i heq2
                  obtain ⟨s4x, v4x, hinj2, hw4, hm4⟩ := ihENO _ _ _ heq2
                    hwB
                    (show 8 * pmeas (padv (padv s1x)) + 4 ≤ n by omega)
                  injection hinj2 with h2
                  injection h2 with h2a h2b
                  rw [h2a, h2b]
                  exact ⟨_, _, rfl, hw4,
                    le_trans hm4
                      (show pmeas (padv (padv s1x)) ≤ pmeas s by omega),
                    fun _ => lt_of_le_of_lt hm4
                      (show pmeas (padv (padv s1x)) < pmeas s by omega)⟩
              · exact ⟨_, _, rfl, hwB,
                  show pmeas (padv (padv s1x)) ≤ pmeas s by omega,
                  fun _ => show pmeas (padv (padv s1x)) < pmeas s by
                    omega⟩
          · exact ⟨_, _, rfl, hwB,
              show pmeas (padv (padv s1x)) ≤ pmeas s by omega,
              fun _ => show pmeas (padv (padv s1x)) < pmeas s by omega⟩
        · simp only [if_neg hk, hct]
          exact ⟨_, _, rfl, hwA,
            show pmeas (padv s1x) ≤ pmeas s by omega,
            fun _ => show pmeas (padv s1x) < pmeas s by omega⟩
    | Identifier =>
      have hnE : ¬ s1x.cur.type = TokenType.End := by
        rw [hct]
        exact fun hx => TokenType.noConfusion hx
      have hwA : pwf (padv s1x) := padv_pwf s1x hw1
      have hltA : pmeas (padv s1x) + 1 = pmeas s1x :=
        padv_meas_lt s1x hw1 hnE
      by_cases hTop : ¬opts.optionalKey = true ∧
          ¬isDelimP (padv s1x) (delimOf opts) = true
      · simp only [if_pos hTop]
        exact ⟨_, _, rfl, hwA,
          show pmeas (padv s1x) ≤ pmeas s by omega,
          fun _ => show pmeas (padv s1x) < pmeas s by omega⟩
      · simp only [if_neg hTop]
        by_cases hk : isDelimP (padv s1x) (delimOf opts) = true
        · simp only [if_pos hk]
          have hwB : pwf (padv (padv s1x)) := padv_pwf _ hwA
          have hleB : pmeas (padv (padv s1x)) ≤ pmeas (padv s1x) :=
            padv_meas_le _ hwA
          split
          · exact ⟨_, _, rfl, padv_pwf _ hwB,
              show pmeas (padv (padv (padv s1x))) ≤ pmeas s by
                have := padv_meas_le (padv (padv s1x)) hwB
                omega,
              fun _ => show pmeas (padv (padv (padv s1x))) < pmeas s by
                have := padv_meas_le (padv (padv s1x)) hwB
                omega⟩
          · exact ⟨_, _, rfl, padv_pwf _ hwB,
              show pmeas (padv (padv (padv s1x))) ≤ pmeas s by
                have := padv_meas_le (padv (padv s1x)) hwB
                omega,
              fun _ => show pmeas (padv (padv (padv s1x))) < pmeas s by
                have := padv_meas_le (padv (padv s1x)) hwB
                omega⟩
          · exact ⟨_, _, rfl, padv_pwf _ hwB,
              show pmeas (padv (padv (padv s1x))) ≤ pmeas s by
                have := padv_meas_le (padv (padv s1x)) hwB
                omega,
              fun _ => show pmeas (padv (padv (padv s1x))) < pmeas s by
                have := padv_meas_le (padv (padv s1x)) hwB
                omega⟩
          · split
            · split
              · rename_i heq2
                obtain ⟨s4, v4, habs, _⟩ := ihEAO _ _ heq2 hwB
                  (show 8 * pmeas (padv (padv s1x)) + 4 ≤ n by omega)
                exact Option.noConfusion habs
              · rename_i heq2
                obtain ⟨s4x, v4x, hinj2, hw4, hm4⟩ := ihEAO _ _ heq2 hwB
                  (show 8 * pmeas (padv (padv s1x)) + 4 ≤ n by omega)
                injection hinj2 with h2
                injection h2 with h2a h2b
                rw [h2a, h2b]
                exact ⟨_, _, rfl, hw4,
                  le_trans hm4
                    (show pmeas (padv (padv s1x)) ≤ pmeas s by omega),
                  fun _ => lt_of_le_of_lt hm4
                    (show pmeas (padv (padv s1x)) < pmeas s by omega)⟩
            · split
              · split
                · rename_i heq2
                  obtain ⟨s4, v4, habs, _⟩ := ihENO _ _ _ heq2 hwB
                    (show 8 * pmeas (padv (padv s1x)) + 4 ≤ n by omega)
                  exact Option.noConfusion habs
                · rename_i heq2
                  obtain ⟨s4x, v4x, hinj2, hw4, hm4⟩ := ihENO _ _ _ heq2
                    hwB
                    (show 8 * pmeas (padv (padv s1x)) + 4 ≤ n by omega)
                  injection hinj2 with h2
                  injection h2 with h2a h2b
                  rw [h2a, h2b]
                  exact ⟨_, _, rfl, hw4,
                    le_trans hm4
                      (show pmeas (padv (padv s1x)) ≤ pmeas s by omega),
                    fun _ => lt_of_le_of_lt hm4
                      (show pmeas (padv (padv s1x)) < pmeas s by omega)⟩
              · exact ⟨_, _, rfl, hwB,
                  show pmeas (padv (padv s1x)) ≤ pmeas s by omega,
                  fun _ => show pmeas (padv (padv s1x)) < pmeas s by
                    omega⟩
          · exact ⟨_, _, rfl, hwB,
              show pmeas (padv (padv s1x)) ≤ pmeas s by omega,
              fun _ => show pmeas (padv (padv s1x)) < pmeas s by omega⟩
        · simp only [if_neg hk, hct]
          exact ⟨_, _, rfl, hwA,
            show pmeas (padv s1x) ≤ pmeas s by omega,
            fun _ => show pmeas (padv s1x) < pmeas s by omega⟩
    | Delimiter =>
      cases hok : opts.optionalKey with
      | false =>
        simp only [hok]
        exact ⟨_, _, rfl, hw1,
          show pmeas s1x ≤ pmeas s by omega,
          fun hcid => by
            rcases hkey hcid with h2 | h2
            · exact show pmeas s1x < pmeas s by omega
            · rw [h2] at hct
              rw [hcid] at hct
              exact TokenType.noConfusion hct⟩
      | true =>
        have hcond : ¬(¬True ∧
            ¬isDelimP s1x (delimOf opts) = true) := by simp
        simp only [if_neg hcond]
        by_cases hk2 : isDelimP s1x (delimOf opts) = true
        · simp only [if_pos hk2]
          have hnE : ¬ s1x.cur.type = TokenType.End := by
            rw [hct]
            exact fun hx => TokenType.noConfusion hx
          have hwA : pwf (padv s1x) := padv_pwf s1x hw1
          have hltA : pmeas (padv s1x) + 1 = pmeas s1x :=
            padv_meas_lt s1x hw1 hnE
          split
          · exact ⟨_, _, rfl, padv_pwf _ hwA,
              show pmeas (padv (padv s1x)) ≤ pmeas s by
                have := padv_meas_le (padv s1x) hwA
                omega,
              fun _ => show pmeas (padv (padv s1x)) < pmeas s by
                have := padv_meas_le (padv s1x) hwA
                omega⟩
          · exact ⟨_, _, rfl, padv_pwf _ hwA,
              show pmeas (padv (padv s1x)) ≤ pmeas s by
                have := padv_meas_le (padv s1x) hwA
                omega,
              fun _ => show pmeas (padv (padv s1x)) < pmeas s by
                have := padv_meas_le (padv s1x) hwA
                omega⟩
          · exact ⟨_, _, rfl, padv_pwf _ hwA,
              show pmeas (padv (padv s1x)) ≤ pmeas s by
                have := padv_meas_le (padv s1x) hwA
                omega,
              fun _ => show pmeas (padv (padv s1x)) < pmeas s by
                have := padv_meas_le (padv s1x) hwA
                omega⟩
          · split
            · split
              · rename_i heq2
                obtain ⟨s4, v4, habs, _⟩ := ihEAO _ _ heq2 hwA
                  (show 8 * pmeas (padv s1x) + 4 ≤ n by omega)
                exact Option.noConfusion habs
              · rename_i heq2
                obtain ⟨s4x, v4x, hinj2, hw4, hm4⟩ := ihEAO _ _ heq2 hwA
                  (show 8 * pmeas (padv s1x) + 4 ≤ n by omega)
                injection hinj2 with h2
                injection h2 with h2a h2b
                rw [h2a, h2b]
                exact ⟨_, _, rfl, hw4,
                  le_trans hm4
                    (show pmeas (padv s1x) ≤ pmeas s by omega),
                  fun _ => lt_of_le_of_lt hm4
                    (show pmeas (padv s1x) < pmeas s by omega)⟩
            · split
              · split
                · rename_i heq2
                  obtain ⟨s4, v4, habs, _⟩ := ihENO _ _ _ heq2 hwA
                    (show 8 * pmeas (padv s1x) + 4 ≤ n by omega)
                  exact Option.noConfusion habs
                · rename_i heq2
                  obtain ⟨s4x, v4x, hinj2, hw4, hm4⟩ := ihENO _ _ _ heq2
                    hwA
                    (show 8 * pmeas (padv s1x) + 4 ≤ n by omega)
                  injection hinj2 with h2
                  injection h2 with h2a h2b
                  rw [h2a, h2b]
                  exact ⟨_, _, rfl, hw4,
                    le_trans hm4
                      (show pmeas (padv s1x) ≤ pmeas s by omega),
                    fun _ => lt_of_le_of_lt hm4
                      (show pmeas (padv s1x) < pmeas s by omega)⟩
              · exact ⟨_, _, rfl, hwA,
                  show pmeas (padv s1x) ≤ pmeas s by omega,
                  fun _ => show pmeas (padv s1x) < pmeas s by omega⟩
          · exact ⟨_, _, rfl, hwA,
              show pmeas (padv s1x) ≤ pmeas s by omega,
              fun _ => show pmeas (padv s1x) < pmeas s by omega⟩
        · simp only [if_neg hk2, hct]
          split
          · split
            · rename_i heq2
              obtain ⟨s4, v4, habs, _⟩ := ihEAO _ _ heq2 hw1
                (show 8 * pmeas s1x + 4 ≤ n by omega)
              exact Option.noConfusion habs
            · rename_i heq2
              obtain ⟨s4x, v4x, hinj2, hw4, hm4⟩ := ihEAO _ _ heq2 hw1
                (show 8 * pmeas s1x + 4 ≤ n by omega)
              injection hinj2 with h2
              injection h2 with h2a h2b
              rw [h2a, h2b]
              exact ⟨_, _, rfl, hw4,
                le_trans hm4 (show pmeas s1x ≤ pmeas s by omega),
                fun hcid => by
                  rcases hkey hcid with h3 | h3
                  · exact lt_of_le_of_lt hm4
                      (show pmeas s1x < pmeas s by omega)
                  · rw [h3] at hct
                    rw [hcid] at hct
                    exact TokenType.noConfusion hct⟩
          · split
            · split
              · rename_i heq2
                obtain ⟨s4, v4, habs, _⟩ := ihENO _ _ _ heq2 hw1
                  (show 8 * pmeas s1x + 4 ≤ n by omega)
                exact Option.noConfusion habs
              · rename_i heq2
                obtain ⟨s4x, v4x, hinj2, hw4, hm4⟩ := ihENO _ _ _ heq2
                  hw1 (show 8 * pmeas s1x + 4 ≤ n by omega)
                injection hinj2 with h2
                injection h2 with h2a h2b
                rw [h2a, h2b]
                exact ⟨_, _, rfl, hw4,
                  le_trans hm4 (show pmeas s1x ≤ pmeas s by omega),
                  fun hcid => by
                    rcases hkey hcid with h3 | h3
                    · exact lt_of_le_of_lt hm4
                        (show pmeas s1x < pmeas s by omega)
                    · rw [h3] at hct
                      rw [hcid] at hct
                      exact TokenType.noConfusion hct⟩
            · exact ⟨_, _, rfl, hw1,
                show pmeas s1x ≤ pmeas s by omega,
                fun hcid => by
                  rcases hkey hcid with h3 | h3
                  · exact show pmeas s1x < pmeas s by omega
                  · rw [h3] at hct
                    rw [hcid] at hct
                    exact TokenType.noConfusion hct⟩
    | Error =>
      cases hok : opts.optionalKey with
      | false =>
        simp only [hok]
        exact ⟨_, _, rfl, hw1,
          show pmeas s1x ≤ pmeas s by omega,
          fun hcid => by
            rcases hkey hcid with h2 | h2
            · exact show pmeas s1x < pmeas s by omega
            · rw [h2] at hct
              rw [hcid] at hct
              exact TokenType.noConfusion hct⟩
      | true =>
        have hcond : ¬(¬True ∧
            ¬isDelimP s1x (delimOf opts) = true) := by simp
        simp only [if_neg hcond]
        by_cases hk2 : isDelimP s1x (delimOf opts) = true
        · exfalso
          simp [isDelimP, hct] at hk2
        · simp only [if_neg hk2, hct]
          exact ⟨_, _, rfl, hw1,
            show pmeas s1x ≤ pmeas s by omega,
            fun hcid => by
              rcases hkey hcid with h2 | h2
              · exact show pmeas s1x < pmeas s by omega
              · rw [h2] at hct
                rw [hcid] at hct
                exact TokenType.noConfusion hct⟩
    | Comment =>
      cases hok : opts.optionalKey with
      | false =>
        simp only [hok]
        exact ⟨_, _, rfl, hw1,
          show pmeas s1x ≤ pmeas s by omega,
          fun hcid => by
            rcases hkey hcid with h2 | h2
            · exact show pmeas s1x < pmeas s by omega
            · rw [h2] at hct
              rw [hcid] at hct
              exact TokenType.noConfusion hct⟩
      | true =>
        have hcond : ¬(¬True ∧
            ¬isDelimP s1x (delimOf opts) = true) := by simp
        simp only [if_neg hcond]
        by_cases hk2 : isDelimP s1x (delimOf opts) = true
        · exfalso
          simp [isDelimP, hct] at hk2
        · simp only [if_neg hk2, hct]
          exact ⟨_, _, rfl, hw1,
            show pmeas s1x ≤ pmeas s by omega,
            fun hcid => by
              rcases hkey hcid with h2 | h2
              · exact show pmeas s1x < pmeas s by omega
              · rw [h2] at hct
                rw [hcid] at hct
                exact TokenType.noConfusion hct⟩
    | DocumentationComment =>
      cases hok : opts.optionalKey with
      | false =>
        simp only [hok]
        exact ⟨_, _, rfl, hw1,
          show pmeas s1x ≤ pmeas s by omega,
          fun hcid => by
            rcases hkey hcid with h2 | h2
            · exact show pmeas s1x < pmeas s by omega
            · rw [h2] at hct
              rw [hcid] at hct
              exact TokenType.noConfusion hct⟩
      | true =>
        have hcond : ¬(¬True ∧
            ¬isDelimP s1x (delimOf opts) = true) := by simp
        simp only [if_neg hcond]
        by_cases hk2 : isDelimP s1x (delimOf opts) = true
        · exfalso
          simp [isDelimP, hct] at hk2
        · simp only [if_neg hk2, hct]
          exact ⟨_, _, rfl, hw1,
            show pmeas s1x ≤ pmeas s by omega,
            fun hcid => by
              rcases hkey hcid with h2 | h2
              · exact show pmeas s1x < pmeas s by omega
              · rw [h2] at hct
                rw [hcid] at hct
                exact TokenType.noConfusion hct⟩
    | End =>
      cases hok : opts.optionalKey with
      | false =>
        simp only [hok]
        exact ⟨_, _, rfl, hw1,
          show pmeas s1x ≤ pmeas s by omega,
          fun hcid => by
            rcases hkey hcid with h2 | h2
            · exact show pmeas s1x < pmeas s by omega
            · rw [h2] at hct
              rw [hcid] at hct
              exact TokenType.noConfusion hct⟩
      | true =>
        have hcond : ¬(¬True ∧
            ¬isDelimP s1x (delimOf opts) = true) := by simp
        simp only [if_neg hcond]
        by_cases hk2 : isDelimP s1x (delimOf opts) = true
        · exfalso
          simp [isDelimP, hct] at hk2
        · simp only [if_neg hk2, hct]
          exact ⟨_, _, rfl, hw1,
            show pmeas s1x ≤ pmeas s by omega,
            fun hcid => by
              rcases hkey hcid with h2 | h2
              · exact show pmeas s1x < pmeas s by omega
              · rw [h2] at hct
                rw [hcid] at hct
                exact TokenType.noConfusion hct⟩

theorem step_ECS (n : Nat) (ihek : Hekvp n) : HECS (n + 1) := by
  intro s res hres hw hf
  subst hres
  simp only [expectControlStatement]
  by_cases hv : ¬valStarts s.cur.value '$' = true
  · simp only [if_pos hv]
    by_cases hsp : (match (pmsg s "Expected control statement key." s.cur
        MessageType.Error false).cur.value with
      | some v => v.length == 1
      | none => false) = true
    · simp only [if_pos hsp]
      have h6 := padv_meas_le
        (pmsg s "Expected control statement key." s.cur .Error false) hw
      have h7 : pmeas (pmsg s "Expected control statement key." s.cur
          .Error false) = pmeas s := rfl
      split
      · rename_i heq
        obtain ⟨s2, v2, habs, _⟩ := ihek _ _ _ heq
          (padv_pwf (pmsg s "Expected control statement key." s.cur
            .Error false) hw)
          (by omega)
        exact Option.noConfusion habs
      · rename_i heq
        obtain ⟨s2x, v2x, hinj, hw2, hm2, _⟩ := ihek _ _ _ heq
          (padv_pwf (pmsg s "Expected control statement key." s.cur
            .Error false) hw)
          (by omega)
        injection hinj with h
        injection h with h1 h2
        rw [h1, h2]
        have h8 : pmeas s2x ≤ pmeas (padv (pmsg s
            "Expected control statement key." s.cur .Error false)) := hm2
        refine ⟨_, rfl, pwf_set_d _ _ hw2, ?_, ?_⟩
        · simp only [pmeas_set_d]
          omega
        · intro hcid
          have hne : ¬ (pmsg s "Expected control statement key." s.cur
              .Error false).cur.type = TokenType.End := by
            show ¬ s.cur.type = TokenType.End
            rw [hcid]
            exact fun hx => TokenType.noConfusion hx
          have h9 := padv_meas_lt
            (pmsg s "Expected control statement key." s.cur .Error false)
            hw hne
          simp only [pmeas_set_d]
          omega
    · simp only [if_neg hsp]
      have h7 : pmeas (pmsg s "Expected control statement key." s.cur
          .Error false) = pmeas s := rfl
      split
      · rename_i heq
        obtain ⟨s2, v2, habs, _⟩ := ihek _ _ _ heq hw (by omega)
        exact Option.noConfusion habs
      · rename_i heq
        obtain ⟨s2x, v2x, hinj, hw2, hm2, hstrict⟩ := ihek _ _ _ heq hw
          (by omega)
        injection hinj with h
        injection h with h1 h2
        rw [h1, h2]
        have h8 : pmeas s2x ≤ pmeas (pmsg s
            "Expected control statement key." s.cur .Error false) := hm2
        refine ⟨_, rfl, pwf_set_d _ _ hw2, ?_, ?_⟩
        · simp only [pmeas_set_d]
          omega
        · intro hcid
          have h9 := hstrict
            (show (pmsg s "Expected control statement key." s.cur .Error
              false).cur.type = TokenType.Identifier from hcid)
          simp only [pmeas_set_d]
          omega
  · simp only [if_neg hv]
    by_cases hsp : (match s.cur.value with
      | some v => v.length == 1
      | none => false) = true
    · simp only [if_pos hsp]
      have h6 := padv_meas_le s hw
      split
      · rename_i heq
        obtain ⟨s2, v2, habs, _⟩ := ihek _ _ _ heq (padv_pwf s hw)
          (by omega)
        exact Option.noConfusion habs
      · rename_i heq
        obtain ⟨s2x, v2x, hinj, hw2, hm2, _⟩ := ihek _ _ _ heq
          (padv_pwf s hw) (by omega)
        injection hinj with h
        injection h with h1 h2
        rw [h1, h2]
        have h8 : pmeas s2x ≤ pmeas (padv s) := hm2
        refine ⟨_, rfl, pwf_set_d _ _ hw2, ?_, ?_⟩
        · simp only [pmeas_set_d]
          omega
        · intro hcid
          have hne : ¬ s.cur.type = TokenType.End := by
            rw [hcid]
            exact fun hx => TokenType.noConfusion hx
          have h9 := padv_meas_lt s hw hne
          simp only [pmeas_set_d]
          omega
    · simp only [if_neg hsp]
      split
      · rename_i heq
        obtain ⟨s2, v2, habs, _⟩ := ihek _ _ _ heq hw (by omega)
        exact Option.noConfusion habs
      · rename_i heq
        obtain ⟨s2x, v2x, hinj, hw2, hm2, hstrict⟩ := ihek _ _ _ heq hw
          (by omega)
        injection hinj with h
        injection h with h1 h2
        rw [h1, h2]
        refine ⟨_, rfl, pwf_set_d _ _ hw2, ?_, ?_⟩
        · simp only [pmeas_set_d]
          omega
        · intro hcid
          have h9 := hstrict hcid
          simp only [pmeas_set_d]
          omega

theorem padv_padv_set_d_meas (x : P) (d0 : PDoc) :
    pmeas (padv (padv { x with d := d0 })) = pmeas (padv (padv x)) := by
  obtain ⟨c, r, dd⟩ := x
  cases r with
  | nil => rfl
  | cons t r2 => cases r2 <;> rfl

theorem step_pp (n : Nat) (ihek : Hekvp n) (ihET : HET n) (ihENO : HENO n)
    (ihECS : HECS n) (ihpp : Hpp n) : Hpp (n + 1) := by
  intro s hw hf
  simp only [pparse]
  by_cases hce : s.cur.type = TokenType.End
  · simp only [if_pos hce]
    rfl
  · simp only [if_neg hce]
    have hpos : 1 ≤ pmeas s := pmeas_pos s hce
    have h1 := padv_meas_lt s hw hce
    have hwp := padv_pwf s hw
    have h2 := padv_meas_le (padv s) hwp
    cases hct2 : s.cur.type with
    | End => exact absurd hct2 hce
    | Error =>
      exact ihpp _ (padv_pwf _ hw)
        (by simp only [padv_pmsg_meas]; omega)
    | Comment =>
      exact ihpp _ (padv_pwf _ hw)
        (by simp only [padv_pmsg_meas]; omega)
    | DocumentationComment =>
      exact ihpp _ (padv_pwf _ hw)
        (by simp only [padv_pmsg_meas]; omega)
    | Delimiter =>
      exact ihpp _ (padv_pwf _ hw)
        (by simp only [padv_pmsg_meas]; omega)
    | String =>
      exact ihpp _ (padv_pwf _ hw)
        (by simp only [padv_pmsg_meas]; omega)
    | Number =>
      exact ihpp _ (padv_pwf _ hw)
        (by simp only [padv_pmsg_meas]; omega)
    | Identifier =>
      cases hsv : s.cur.value with
      | none =>
        exact ihpp _ (padv_pwf _ hw)
          (by simp only [padv_pmsg_meas]; omega)
      | some v =>
        by_cases hv1 : v = "metadata"
        · simp only [if_pos hv1]
          split
          · rename_i heq
            obtain ⟨sC, nd, habs, _⟩ := ihek _ _ _ heq
              (padv_pwf _ (pwf_set_d _ _ hw))
              (by simp only [padv_set_d_meas]; omega)
            exact Option.noConfusion habs
          · rename_i heq
            obtain ⟨sCx, ndx, hinj, hwC, hmC, _⟩ := ihek _ _ _ heq
              (padv_pwf _ (pwf_set_d _ _ hw))
              (by simp only [padv_set_d_meas]; omega)
            injection hinj with h
            injection h with ha hb
            rw [ha, hb]
            refine ihpp _ (pwf_set_d _ _ hwC) ?_
            simp only [pmeas_set_d]
            simp only [padv_set_d_meas] at hmC
            omega
        · simp only [if_neg hv1]
          by_cases hv2 : v = "namespace"
          · simp only [if_pos hv2]
            split <;> split
            · refine ihpp _
                (pwf_set_d _ _ (padv_pwf _ (pwf_set_d _ _
                  (pwf_set_d _ _ hw)))) ?_
              simp only [pmeas_pmsg, padv_set_d_meas]
              omega
            · refine ihpp _
                (padv_pwf _ (pwf_set_d _ _ (padv_pwf _
                  (pwf_set_d _ _ (pwf_set_d _ _ hw))))) ?_
              simp only [padv_set_d_meas, padv_padv_set_d_meas]
              omega
            · refine ihpp _
                (pwf_set_d _ _ (padv_pwf _ (pwf_set_d _ _
                  (pwf_set_d _ _ hw)))) ?_
              simp only [pmeas_pmsg, padv_set_d_meas]
              omega
            · refine ihpp _
                (padv_pwf _ (pwf_set_d _ _ (padv_pwf _
                  (pwf_set_d _ _ (pwf_set_d _ _ hw))))) ?_
              simp only [padv_set_d_meas, padv_padv_set_d_meas]
              omega
          · simp only [if_neg hv2]
            by_cases hv3 : v = "use"
            · simp only [if_pos hv3]
              by_cases hid : (padv { s with d := enterSection s.d .Shape s.cur }).cur.type = TokenType.Identifier
              · have hei : expectIdentifier (padv { s with d := enterSection s.d .Shape s.cur }) = (padv (padv { s with d := enterSection s.d .Shape s.cur }), some (padv { s with d := enterSection s.d .Shape s.cur }).cur) := by
                  simp [expectIdentifier, hid]
                simp only [hei]
                refine ihpp _
                  (pwf_set_d _ _ (padv_pwf _ (padv_pwf _
                    (pwf_set_d _ _ hw)))) ?_
                simp only [pmeas_set_d, padv_padv_set_d_meas]
                omega
              · have hei : expectIdentifier (padv { s with d := enterSection s.d .Shape s.cur }) = (padv { s with d := enterSection s.d .Shape s.cur }, none) := by
                  simp [expectIdentifier, hid]
                simp only [hei]
                refine ihpp _
                  (pwf_set_d _ _ (padv_pwf _ (pwf_set_d _ _ hw))) ?_
                simp only [pmeas_pmsg, padv_set_d_meas]
                omega
            · simp only [if_neg hv3]
              by_cases hv4 : v = "apply"
              · simp only [if_pos hv4]
                by_cases hid : (padv { s with d := enterSection s.d .Shape s.cur }).cur.type = TokenType.Identifier
                · have hei : expectIdentifier (padv { s with d := enterSection s.d .Shape s.cur }) = (padv (padv { s with d := enterSection s.d .Shape s.cur }), some (padv { s with d := enterSection s.d .Shape s.cur }).cur) := by
                    simp [expectIdentifier, hid]
                  simp only [hei]
                  split
                  · rename_i heq
                    obtain ⟨sD, habs, _⟩ := ihET _ _ _ heq
                      (pwf_set_d _ _ (padv_pwf _ (padv_pwf _
                        (pwf_set_d _ _ hw))))
                      (by simp only [pmeas_set_d, padv_padv_set_d_meas]
                          omega)
                    exact Option.noConfusion habs
                  · rename_i heq
                    obtain ⟨sDx, hinj, hwD, hmD, _⟩ := ihET _ _ _ heq
                      (pwf_set_d _ _ (padv_pwf _ (padv_pwf _
                        (pwf_set_d _ _ hw))))
                      (by simp only [pmeas_set_d, padv_padv_set_d_meas]
                          omega)
                    injection hinj with h
                    rw [h]
                    refine ihpp _ hwD ?_
                    simp only [pmeas_set_d, padv_padv_set_d_meas] at hmD
                    omega
                · have hei : expectIdentifier (padv { s with d := enterSection s.d .Shape s.cur }) = (padv { s with d := enterSection s.d .Shape s.cur }, none) := by
                    simp [expectIdentifier, hid]
                  simp only [hei]
                  refine ihpp _
                    (pwf_set_d _ _ (padv_pwf _ (pwf_set_d _ _ hw))) ?_
                  simp only [pmeas_pmsg, padv_set_d_meas]
                  omega
              · simp only [if_neg hv4]
                by_cases hv5 : isAggregateKeyword v = true
                · simp only [if_pos hv5]
                  by_cases hid : (padv { s with d := enterSection s.d .Shape s.cur }).cur.type = TokenType.Identifier
                  · have hei : expectIdentifier (padv { s with d := enterSection s.d .Shape s.cur }) = (padv (padv { s with d := enterSection s.d .Shape s.cur }), some (padv { s with d := enterSection s.d .Shape s.cur }).cur) := by
                      simp [expectIdentifier, hid]
                    simp only [hei]
                    split
                    · rename_i heq
                      obtain ⟨sD, nq, habs, _⟩ := ihENO _ _ _ heq
                        (padv_pwf _ (padv_pwf _ (pwf_set_d _ _ hw)))
                        (by simp only [padv_padv_set_d_meas]; omega)
                      exact Option.noConfusion habs
                    · rename_i heq
                      obtain ⟨sDx, nqx, hinj, hwD, hmD⟩ := ihENO _ _ _
                        heq (padv_pwf _ (padv_pwf _ (pwf_set_d _ _ hw)))
                        (by simp only [padv_padv_set_d_meas]; omega)
                      injection hinj with h
                      injection h with ha hb
                      rw [ha, hb]
                      refine ihpp _ (pwf_set_d _ _ hwD) ?_
                      simp only [pmeas_set_d]
                      simp only [padv_padv_set_d_meas] at hmD
                      omega
                  · have hei : expectIdentifier (padv { s with d := enterSection s.d .Shape s.cur }) = (padv { s with d := enterSection s.d .Shape s.cur }, none) := by
                      simp [expectIdentifier, hid]
                    simp only [hei]
                    split
                    · rename_i heq
                      obtain ⟨sD, nq, habs, _⟩ := ihENO _ _ _ heq
                        (pwf_set_d _ _ (padv_pwf _ (pwf_set_d _ _ hw)))
                        (by simp only [pmeas_pmsg, padv_set_d_meas]
                            omega)
                      exact Option.noConfusion habs
                    · rename_i heq
                      obtain ⟨sDx, nqx, hinj, hwD, hmD⟩ := ihENO _ _ _
                        heq
                        (pwf_set_d _ _ (padv_pwf _ (pwf_set_d _ _ hw)))
                        (by simp only [pmeas_pmsg, padv_set_d_meas]
                            omega)
                      injection hinj with h
                      injection h with ha hb
                      rw [ha]
                      refine ihpp _ hwD ?_
                      simp only [pmeas_pmsg, padv_set_d_meas] at hmD
                      omega
                · simp only [if_neg hv5]
                  by_cases hv6 : isSimpleKeyword v = true
                  · simp only [if_pos hv6]
                    by_cases hid : (padv { s with d := enterSection s.d .Shape s.cur }).cur.type = TokenType.Identifier
                    · have hei : expectIdentifier (padv { s with d := enterSection s.d .Shape s.cur }) = (padv (padv { s with d := enterSection s.d .Shape s.cur }), some (padv { s with d := enterSection s.d .Shape s.cur }).cur) := by
                        simp [expectIdentifier, hid]
                      simp only [hei]
                      refine ihpp _
                        (pwf_set_d _ _ (padv_pwf _ (padv_pwf _
                          (pwf_set_d _ _ hw)))) ?_
                      simp only [pmeas_set_d, padv_padv_set_d_meas]
                      omega
                    · have hei : expectIdentifier (padv { s with d := enterSection s.d .Shape s.cur }) = (padv { s with d := enterSection s.d .Shape s.cur }, none) := by
                        simp [expectIdentifier, hid]
                      simp only [hei]
                      refine ihpp _
                        (pwf_set_d _ _ (padv_pwf _ (pwf_set_d _ _ hw)))
                        ?_
                      simp only [pmeas_pmsg, padv_set_d_meas]
                      omega
                  · simp only [if_neg hv6]
                    simp only [valCharAt0]
                    cases hhd : v.toList.head? with
                    | none =>
                      exact ihpp _ (padv_pwf _ hw)
                        (by simp only [padv_pmsg_meas]; omega)
                    | some c =>
                      split
                      · split
                        · rename_i heq
                          obtain ⟨s1, habs, _⟩ := ihET _ _ _ heq hw
                            (by omega)
                          exact Option.noConfusion habs
                        · rename_i heq
                          obtain ⟨s1x, hinj, hw1, hm1, hstrict⟩ :=
                            ihET _ _ _ heq hw (by omega)
                          injection hinj with h
                          rw [h]
                          refine ihpp _ hw1 ?_
                          have h3 := hstrict hct2
                          omega
                      · split
                        · rename_i heq
                          obtain ⟨s1, habs, _⟩ := ihECS _ _ heq
                            (pwf_set_d _ _ hw)
                            (by simp only [pmeas_set_d]; omega)
                          exact Option.noConfusion habs
                        · rename_i heq
                          obtain ⟨s1x, hinj, hw1, hm1, hstrict⟩ :=
                            ihECS _ _ heq (pwf_set_d _ _ hw)
                            (by simp only [pmeas_set_d]; omega)
                          injection hinj with h
                          rw [h]
                          refine ihpp _ hw1 ?_
                          have h3 := hstrict hct2
                          simp only [pmeas_set_d] at h3
                          omega
                      · exact ihpp _ (padv_pwf _ hw)
                          (by simp only [padv_pmsg_meas]; omega)

theorem parserTotal : ∀ fuel : Nat,
    HET fuel ∧ Htpl fuel ∧ Htal fuel ∧ Hekvp fuel ∧ HEV fuel ∧
    HEAO fuel ∧ Hal fuel ∧ HENO fuel ∧ Hol fuel ∧ HECS fuel ∧
    Hpp fuel := by
  intro fuel
  induction fuel with
  | zero =>
    refine ⟨?_, ?_, ?_, ?_, ?_, ?_, ?_, ?_, ?_, ?_, ?_⟩
    · intro prevTok s res hres hw hf
      exact absurd hf (by omega)
    · intro s res hres hw hf
      exact absurd hf (by omega)
    · intro s res hres hw hf
      exact absurd hf (by omega)
    · intro opts s res hres hw hf
      exact absurd hf (by omega)
    · intro s res hres hw hf
      exact absurd hf (by omega)
    · intro s res hres hw hf
      exact absurd hf (by omega)
    · intro acc s res hres hw hf
      exact absurd hf (by omega)
    · intro afterTok s res hres hw hf
      exact absurd hf (by omega)
    · intro acc s res hres hw hf
      exact absurd hf (by omega)
    · intro s res hres hw hf
      exact absurd hf (by omega)
    · intro s hw hf
      exact absurd hf (by omega)
  | succ n ih =>
    obtain ⟨hET, htpl, htal, hek, hEV, hEAO, hal, hENO, hol, hECS, hpp⟩ :=
      ih
    exact ⟨step_ET n htal, step_tpl n hET htpl, step_tal n hek htal,
      step_ekvp n htpl hEAO hENO, step_EV n hEAO hENO, step_EAO n hal,
      step_al n hEV hal, step_ENO n hol, step_ol n hek hol,
      step_ECS n hek, step_pp n hek hET hENO hECS hpp⟩

/-- C2: every iteration of the top-level statement loop of Parser.parse
consumes at least one token, in every dispatch branch including the
Unexpected identifier and Unexpected token recovery branches, and the
same holds for all the inner loops, so the parser terminates on every
finite token stream: fuel linear in the stream length suffices and
parse returns a document. -/
theorem c2_parser_terminates (ts : List Token) (d : PDoc) (fuel : Nat)
    (h : ∀ t ∈ ts, t.type ≠ TokenType.End)
    (hf : 8 * ts.length + 7 ≤ fuel) :
    (parseRun fuel ts d).isSome = true := by
  have hp := (parserTotal fuel).2.2.2.2.2.2.2.2.2.2
  have hwf : pwf (pinit ts d) := by
    cases ts with
    | nil =>
      refine ⟨fun _ => rfl, ?_⟩
      intro t ht
      simp [pinit] at ht
    | cons t r =>
      refine ⟨?_, ?_⟩
      · intro hEnd
        exact absurd hEnd (h t (List.mem_cons_self t r))
      · intro u hu
        exact h u (List.mem_cons_of_mem t hu)
  have hm : pmeas (pinit ts d) ≤ ts.length := by
    cases ts with
    | nil => simp [pinit, pmeas, endToken0]
    | cons t r =>
      have ht : t.type ≠ TokenType.End := h t (List.mem_cons_self t r)
      simp [pinit, pmeas, if_neg ht]
  have hres := hp (pinit ts d) hwf (by omega)
  cases hr : pparse fuel (pinit ts d) with
  | none =>
    rw [hr] at hres
    exact absurd hres (by simp)
  | some x =>
    unfold parseRun
    rw [hr]
    rfl

theorem c2_parser_terminates_witness :
    (parseRun (8 * c2toks.length + 7) c2toks {}).isSome = true :=
  c2_parser_terminates c2toks {} (8 * c2toks.length + 7) (by decide)
    (le_refl _)

end Smithy
